import Mathlib

/-!
Verification of the block-synchronization core of the smoldot light client.

The development shallowly embeds, in Lean, the parts of the Rust source that
the verified properties are about:

* `src/src/sync/all_forks.rs` — the *AllForks* syncing engine: per-source
  pending finality-proof slots, block announces, ancestry-search responses,
  the disjoint (unverified) block set and its garbage collection, and GrandPa
  commit handling.
* `src/src/sync/optimistic.rs` — the *Optimistic* syncing engine: the source
  registry with ban flags and per-source request counters, request
  bookkeeping, and `desired_requests`.
* `src/src/chain/chain_information/babe_genesis_config.rs` — the decoder of
  the BABE genesis configuration produced by the runtime.

Bytes, hashes and opaque blobs are abstracted: a 32-byte hash is a `Nat`, a
byte is a `Fin 256`, opaque proof blobs are `Nat`s.  Machine counters (`u64`
identifiers, `u32` counters) are modelled as `Nat`; none of the modelled
operations can overflow them in the scenarios the theorems quantify over,
and the source itself treats them as ever-growing identifiers.

Some helper modules of the repository (`pending_blocks`, `disjoint`,
`verification_queue`, `util::nom_scale_compact_usize`, the external
`blocks_tree`) are not part of the sources provided under `src/`; the
definitions that stand in for them are modelled from the specification and
are marked `Modelled from the spec:` in their doc comments.
-/

namespace AllForks

/-- A justification: 4-byte consensus-engine id plus an opaque SCALE blob,
both abstracted (`([u8; 4], Vec<u8>)` in the source). -/
structure JustEntry where
  engineId : Nat
  blob : Nat
deriving DecidableEq, Repr

/-- `FinalityProofs` from `all_forks.rs`.  The `Justifications` list is never
empty (enforced by the `debug_assert!` at the top of
`SourcePendingJustificationProofs::insert`); the nonempty list is encoded
as a first element plus the remaining tail. -/
inductive FinalityProofs where
  | grandpaCommit (blob : Nat)
  | justifications (first : JustEntry) (rest : List JustEntry)
deriving DecidableEq, Repr

/-- `FinalityProof` from `all_forks.rs`: a single proof handed out by
`take_one`. -/
inductive FinalityProof where
  | grandpaCommit (blob : Nat)
  | justification (j : JustEntry)
deriving DecidableEq, Repr

/-- `SourcePendingJustificationProofs` from `all_forks.rs`: each source
stores between zero and two finality proofs that haven't been verified
yet. -/
inductive SourcePendingJustificationProofs where
  | None
  | One (targetHeight : Nat) (proof : FinalityProofs)
  | Two (lowTargetHeight : Nat) (lowProof : FinalityProofs)
        (highTargetHeight : Nat) (highProof : FinalityProofs)
deriving DecidableEq, Repr

namespace SourcePendingJustificationProofs

/-- `SourcePendingJustificationProofs::insert` (all_forks.rs lines 236-308).
The guards are translated in source order. -/
def insert (s : SourcePendingJustificationProofs) (newTargetHeight : Nat)
    (newProof : FinalityProofs) : SourcePendingJustificationProofs :=
  match s with
  | .None => .One newTargetHeight newProof
  | .One targetHeight proof =>
      if targetHeight < newTargetHeight then
        .Two targetHeight proof newTargetHeight newProof
      else if targetHeight > newTargetHeight then
        .Two newTargetHeight newProof targetHeight proof
      else
        .One newTargetHeight newProof
  | .Two lowTargetHeight lowProof highTargetHeight highProof =>
      if newTargetHeight ≥ highTargetHeight then
        .Two lowTargetHeight lowProof newTargetHeight newProof
      else if newTargetHeight ≤ lowTargetHeight then
        .Two newTargetHeight newProof highTargetHeight highProof
      else
        .Two lowTargetHeight lowProof highTargetHeight highProof

/-- `SourcePendingJustificationProofs::take_one` (all_forks.rs lines
310-383).  `Vec::pop` removes the *last* element of the justification
list; with the nonempty head/tail encoding, a list of length 1 is
`(j, [])` and a longer list is `(j, r :: rs)`. -/
def take_one :
    SourcePendingJustificationProofs →
      Option FinalityProof × SourcePendingJustificationProofs
  | .None => (Option.none, .None)
  | .One _ (.grandpaCommit c) => (some (.grandpaCommit c), .None)
  | .One _ (.justifications j []) => (some (.justification j), .None)
  | .One h (.justifications j (r :: rs)) =>
      (some (.justification ((r :: rs).getLastD j)),
       .One h (.justifications j (r :: rs).dropLast))
  | .Two lowH lowP _ (.grandpaCommit c) =>
      (some (.grandpaCommit c), .One lowH lowP)
  | .Two lowH lowP _ (.justifications j []) =>
      (some (.justification j), .One lowH lowP)
  | .Two lowH lowP highH (.justifications j (r :: rs)) =>
      (some (.justification ((r :: rs).getLastD j)),
       .Two lowH lowP highH (.justifications j (r :: rs).dropLast))

/-- `SourcePendingJustificationProofs::merge` (all_forks.rs lines 385-402). -/
def merge (s : SourcePendingJustificationProofs) :
    SourcePendingJustificationProofs → SourcePendingJustificationProofs
  | .None => s
  | .One targetHeight proof => s.insert targetHeight proof
  | .Two lowTargetHeight lowProof highTargetHeight highProof =>
      (s.insert highTargetHeight highProof).insert lowTargetHeight lowProof

/-- Number of proofs held by the slot. -/
def numProofs : SourcePendingJustificationProofs → Nat
  | .None => 0
  | .One _ _ => 1
  | .Two _ _ _ _ => 2

/-- Target heights held by the slot, low first. -/
def heights : SourcePendingJustificationProofs → List Nat
  | .None => []
  | .One h _ => [h]
  | .Two l _ h _ => [l, h]

/-- Structural invariant: in the `Two` state the low target height is
strictly below the high target height. -/
def WF : SourcePendingJustificationProofs → Prop
  | .None => True
  | .One _ _ => True
  | .Two l _ h _ => l < h

instance : DecidablePred WF := by
  intro s
  cases s <;> simp only [WF] <;> infer_instance

theorem WF_insert {s : SourcePendingJustificationProofs} (hs : WF s)
    (n : Nat) (p : FinalityProofs) : WF (s.insert n p) := by
  cases s with
  | None => simp [insert, WF]
  | One h q =>
      simp only [insert]
      split_ifs <;> simp [WF] <;> omega
  | Two l lp h hp =>
      simp only [WF] at hs
      simp only [insert]
      split_ifs <;> simp [WF] <;> omega

theorem WF_take_one {s : SourcePendingJustificationProofs} (hs : WF s) :
    WF s.take_one.2 := by
  cases s with
  | None => simp [take_one, WF]
  | One h q =>
      cases q with
      | grandpaCommit c => simp [take_one, WF]
      | justifications j rs => cases rs <;> simp [take_one, WF]
  | Two l lp h hp =>
      simp only [WF] at hs
      cases hp with
      | grandpaCommit c => simp [take_one, WF]
      | justifications j rs => cases rs <;> simp [take_one, WF] <;> omega

theorem WF_merge {s o : SourcePendingJustificationProofs} (hs : WF s) :
    WF (s.merge o) := by
  cases o with
  | None => simpa [merge] using hs
  | One h p => exact WF_insert hs h p
  | Two l lp h hp => exact WF_insert (WF_insert hs h hp) l lp

/-- On a well-formed `Two` slot, `insert` keeps the extreme target heights:
the result holds the minimum and the maximum of the three candidates. -/
theorem insert_two_keeps_extremes (l h n : Nat)
    (lp hp : FinalityProofs) (np : FinalityProofs) (hlh : l < h) :
    heights ((Two l lp h hp).insert n np)
      = [min (min l h) n, max (max l h) n] := by
  simp only [insert]
  split_ifs <;> simp [heights] <;> omega

end SourcePendingJustificationProofs

end AllForks

namespace AllForks

open SourcePendingJustificationProofs

/-- C3: the per-source finality-proof slot holds at most two proofs; in the
`Two` state the low target height is strictly below the high one; inserting
into a full slot keeps the proofs whose target heights are the minimum and
the maximum of the three candidate heights; and the invariant is preserved
by `insert`, `take_one` and `merge`. -/
theorem C3_finality_proof_slot
    (s o : SourcePendingJustificationProofs) (hs : WF s) (ho : WF o)
    (n : Nat) (p : FinalityProofs) :
    numProofs s ≤ 2 ∧
    (∀ l lp h hp, s = Two l lp h hp → l < h) ∧
    WF (s.insert n p) ∧
    WF s.take_one.2 ∧
    WF (s.merge o) ∧
    (∀ l lp h hp, s = Two l lp h hp →
      heights (s.insert n p) = [min (min l h) n, max (max l h) n]) := by
  refine ⟨?_, ?_, WF_insert hs n p, WF_take_one hs, WF_merge hs, ?_⟩
  · cases s <;> simp [numProofs]
  · intro l lp h hp hEq; subst hEq; exact hs
  · intro l lp h hp hEq; subst hEq
    exact insert_two_keeps_extremes l h n lp hp p hs

/-- Concrete instantiation of `C3_finality_proof_slot`. -/
theorem C3_finality_proof_slot_witness :
    WF (Two 1 (.grandpaCommit 7) 5 (.grandpaCommit 8)) ∧
    heights ((Two 1 (.grandpaCommit 7) 5 (.grandpaCommit 8)).insert 9
      (.grandpaCommit 3)) = [min (min 1 5) 9, max (max 1 5) 9] := by
  refine ⟨by decide, ?_⟩
  exact (C3_finality_proof_slot (Two 1 (.grandpaCommit 7) 5 (.grandpaCommit 8))
    .None (by decide) (by decide) 9 (.grandpaCommit 3)).2.2.2.2.2
    1 (.grandpaCommit 7) 5 (.grandpaCommit 8) rfl

end AllForks

namespace Optimistic

/-- `Source` from `optimistic.rs` (lines 230-244); the opaque `user_data` is
omitted since no verified property mentions it. -/
structure Source where
  best_block_number : Nat
  banned : Bool
  num_ongoing_requests : Nat
deriving DecidableEq, Repr

/-- State of the `OptimisticSync` bookkeeping relevant to sources and
requests.  `sources` models the `HashMap<SourceId, Source>` as an
association list.  `queueRequests` models the `(RequestId, SourceId)`
pairs recorded inside the verification queue and `obsoleteRequests` the
`obsolete_requests` map.

Modelled from the spec: the `verification_queue` module is not under
`src/`; per the spec's pending-request table, the queue is abstracted to
the multiset of requests it records, each carrying its source. -/
structure OptimisticState where
  sources : List (Nat × Source)
  queueRequests : List (Nat × Nat)
  obsoleteRequests : List (Nat × Nat)
  nextSourceId : Nat
  nextRequestId : Nat
deriving DecidableEq, Repr

/-- `self.inner.sources.get_mut(&id).unwrap()` followed by a mutation:
returns `none` exactly where the Rust code would panic (unknown id). -/
def updateSource (sources : List (Nat × Source)) (id : Nat)
    (f : Source → Source) : Option (List (Nat × Source)) :=
  if sources.any (fun p => p.1 == id) then
    some (sources.map fun p => if p.1 = id then (p.1, f p.2) else p)
  else
    Option.none

/-- Keys of the source registry. -/
def keys (sources : List (Nat × Source)) : List Nat := sources.map Prod.fst

/-- `OptimisticSync::source_best_block` (optimistic.rs lines 442-448),
`none` where the Rust code would panic. -/
def source_best_block (st : OptimisticState) (id : Nat) : Option Nat :=
  (st.sources.find? (fun p => p.1 == id)).map (fun p => p.2.best_block_number)


/-- The mutation applied by `raise_source_best_block` to the source. -/
def raiseBest (b : Nat) (s : Source) : Source :=
  if s.best_block_number < b then { s with best_block_number := b } else s

/-- `OptimisticSync::raise_source_best_block` (optimistic.rs lines
458-463). -/
def raise_source_best_block (st : OptimisticState) (id : Nat)
    (best_block_number : Nat) : Option OptimisticState :=
  (updateSource st.sources id (raiseBest best_block_number)).map
    (fun sources => { st with sources := sources })

theorem find?_map_update (l : List (Nat × Source)) (id : Nat)
    (f : Source → Source) :
    ((l.map fun p => if p.1 = id then (p.1, f p.2) else p).find?
        (fun p => p.1 == id))
      = (l.find? (fun p => p.1 == id)).map (fun p => (p.1, f p.2)) := by
  induction l with
  | nil => simp
  | cons a l ih =>
      by_cases h : a.1 = id
      · simp [List.find?_cons, h]
      · simp [List.find?_cons, h, ih]

theorem keys_map_update (l : List (Nat × Source)) (id : Nat)
    (f : Source → Source) :
    keys (l.map fun p => if p.1 = id then (p.1, f p.2) else p) = keys l := by
  induction l with
  | nil => simp [keys]
  | cons a l ih =>
      by_cases h : a.1 = id <;> simpa [keys, h] using ih

theorem any_eq_of_keys_eq {l l' : List (Nat × Source)} (id : Nat)
    (h : keys l = keys l') :
    l.any (fun p => p.1 == id) = l'.any (fun p => p.1 == id) := by
  have h1 : ∀ m : List (Nat × Source),
      m.any (fun p => p.1 == id) = (keys m).any (fun k => k == id) := by
    intro m; induction m with
    | nil => simp [keys]
    | cons a m ih => simp [keys, ih]
  rw [h1, h1, h]

theorem map_update_idem (l : List (Nat × Source)) (id : Nat)
    (f : Source → Source) (hf : ∀ s, f (f s) = f s) :
    ((l.map fun p => if p.1 = id then (p.1, f p.2) else p).map
        fun p => if p.1 = id then (p.1, f p.2) else p)
      = l.map fun p => if p.1 = id then (p.1, f p.2) else p := by
  induction l with
  | nil => simp
  | cons a l ih => by_cases h : a.1 = id <;> simp [h, hf, ih]

theorem raiseBest_idem (b : Nat) (s : Source) :
    raiseBest b (raiseBest b s) = raiseBest b s := by
  unfold raiseBest
  by_cases h : s.best_block_number < b <;> simp [h]

/-- C10: `raise_source_best_block` sets the stored best block to the
maximum of its current value and the argument; the stored value never
decreases; and the operation is idempotent. -/
theorem C10_raise_source_best_block (st st' : OptimisticState)
    (id b : Nat)
    (h : raise_source_best_block st id b = some st') :
    (∀ v, source_best_block st id = some v →
        source_best_block st' id = some (max v b) ∧ v ≤ max v b) ∧
    raise_source_best_block st' id b = some st' := by
  classical
  unfold raise_source_best_block updateSource at h
  by_cases hany : st.sources.any (fun p => p.1 == id)
  · rw [if_pos hany] at h
    simp only [Option.map_some', Option.some.injEq] at h
    subst h
    refine ⟨?_, ?_⟩
    · intro v hv
      unfold source_best_block at hv ⊢
      rw [find?_map_update st.sources id (raiseBest b)]
      rcases hfind : st.sources.find? (fun p => p.1 == id) with _ | p
      · rw [hfind] at hv; simp at hv
      · rw [hfind] at hv
        rw [hfind]
        simp only [Option.map_some', Option.some.injEq] at hv
        simp only [Option.map_some', Option.some.injEq]
        unfold raiseBest
        constructor
        · by_cases hlt : p.2.best_block_number < b <;>
            simp only [hlt, if_true, if_false, ← hv] <;> omega
        · omega
    · unfold raise_source_best_block updateSource
      rw [any_eq_of_keys_eq id (keys_map_update st.sources id (raiseBest b)),
        if_pos hany,
        map_update_idem st.sources id (raiseBest b) (raiseBest_idem b)]
      simp
  · rw [if_neg hany] at h; simp at h

/-- Concrete instantiation of `C10_raise_source_best_block`. -/
theorem C10_raise_source_best_block_witness :
    raise_source_best_block
        ⟨[(0, ⟨4, false, 0⟩)], [], [], 1, 0⟩ 0 7
      = some ⟨[(0, ⟨7, false, 0⟩)], [], [], 1, 0⟩ ∧
    source_best_block ⟨[(0, ⟨7, false, 0⟩)], [], [], 1, 0⟩ 0
      = some (max 4 7) := by
  have h : raise_source_best_block
      ⟨[(0, ⟨4, false, 0⟩)], [], [], 1, 0⟩ 0 7
      = some ⟨[(0, ⟨7, false, 0⟩)], [], [], 1, 0⟩ := by decide
  refine ⟨h, ?_⟩
  exact ((C10_raise_source_best_block _ _ 0 7 h).1 4 (by decide)).1

/-- `RequestDetail` from optimistic.rs (lines 1519-1529). -/
structure RequestDetail where
  source_id : Nat
  block_height : Nat
  num_blocks : Nat
deriving DecidableEq, Repr

/-- `OptimisticSync::desired_requests` (optimistic.rs lines 540-558): for
every missing slot of the verification queue, pair it with every source
whose best block is at least the slot height (`checked_sub` filters the
others out) and clamp the block count.

Modelled from the spec: `verification_queue::desired_requests` is not
under `src/`; per the spec it yields the `(block_height, num_blocks)`
pair of each queue slot currently Missing, which is taken here as the
`missingSlots` argument. -/
def desired_requests (st : OptimisticState)
    (missingSlots : List (Nat × Nat)) : List RequestDetail :=
  missingSlots.flatMap fun e =>
    st.sources.filterMap fun s =>
      if e.1 ≤ s.2.best_block_number then
        some ⟨s.1, e.1, min (s.2.best_block_number - e.1 + 1) e.2⟩
      else
        Option.none

/-- C2: counter-evidence.  With a single *banned* source whose best block
covers a missing slot, `desired_requests` still yields a request pairing
that source: the source-side filter in optimistic.rs lines 546-557 checks
only `best_block_number ≥ block_height` and never reads `banned`. -/
theorem C2_desired_requests_yields_banned_source :
    desired_requests ⟨[(0, ⟨10, true, 0⟩)], [], [], 1, 0⟩ [(1, 5)]
        = [⟨0, 1, min (10 - 1 + 1) 5⟩] ∧
    (Source.banned ⟨10, true, 0⟩) = true := by
  constructor
  · rfl
  · rfl

/-- Look up a request's source by request id. -/
def findReq (l : List (Nat × Nat)) (rid : Nat) : Option Nat :=
  (l.find? (fun r => r.1 == rid)).map Prod.snd

/-- Removal of a request by id (`HashMap::remove` /
`verification_queue::finish_request`). -/
def removeReq (l : List (Nat × Nat)) (rid : Nat) : List (Nat × Nat) :=
  l.filter (fun r => r.1 ≠ rid)

/-- `num_ongoing_requests -= 1`.  `Nat` subtraction truncates at zero
where the `u32` would underflow; under `Inv` (below) the counter is
positive whenever the code decrements it. -/
def decOngoing (s : Source) : Source :=
  { s with num_ongoing_requests := s.num_ongoing_requests - 1 }

/-- `num_ongoing_requests += 1`. -/
def incOngoing (s : Source) : Source :=
  { s with num_ongoing_requests := s.num_ongoing_requests + 1 }

def setBanned (b : Bool) (s : Source) : Source := { s with banned := b }

/-- "If all sources are banned, unban them." (optimistic.rs lines
699-704). -/
def unbanAllIfAllBanned (sources : List (Nat × Source)) :
    List (Nat × Source) :=
  if sources.all (fun p => p.2.banned) then
    sources.map (fun p => (p.1, setBanned false p.2))
  else sources

/-- `OptimisticSync::finish_request_success` (optimistic.rs lines
620-656): an obsolete request is dropped from the obsolete set, otherwise
the request is removed from the verification queue; in both cases the
source's ongoing-request counter is decremented.

Modelled from the spec: `verification_queue::finish_request` is not under
`src/`; per the spec's request table it removes the matching request and
returns its source, abstracted here as `findReq`/`removeReq` on the
queue's request list. -/
def finish_request_success (st : OptimisticState) (rid : Nat) :
    Option OptimisticState :=
  match findReq st.obsoleteRequests rid with
  | some sid =>
      (updateSource st.sources sid decOngoing).map (fun sources =>
        { st with sources := sources,
                  obsoleteRequests := removeReq st.obsoleteRequests rid })
  | Option.none =>
      match findReq st.queueRequests rid with
      | some sid =>
          (updateSource st.sources sid decOngoing).map (fun sources =>
            { st with sources := sources,
                      queueRequests := removeReq st.queueRequests rid })
      | Option.none => Option.none

/-- `OptimisticSync::finish_request_failed` (optimistic.rs lines 666-707):
like `finish_request_success`, but in the non-obsolete case the request's
source is additionally banned, followed by the unban-all-if-all-banned
step. -/
def finish_request_failed (st : OptimisticState) (rid : Nat) :
    Option OptimisticState :=
  match findReq st.obsoleteRequests rid with
  | some sid =>
      (updateSource st.sources sid decOngoing).map (fun sources =>
        { st with sources := sources,
                  obsoleteRequests := removeReq st.obsoleteRequests rid })
  | Option.none =>
      match findReq st.queueRequests rid with
      | some sid =>
          (updateSource st.sources sid decOngoing).bind (fun s1 =>
            (updateSource s1 sid (setBanned true)).map (fun s2 =>
              { st with sources := unbanAllIfAllBanned s2,
                        queueRequests := removeReq st.queueRequests rid }))
      | Option.none => Option.none

theorem mem_map_update {l : List (Nat × Source)} {id : Nat}
    {f : Source → Source} {p : Nat × Source}
    (hp : p ∈ l.map fun q => if q.1 = id then (q.1, f q.2) else q) :
    (p.1 = id ∧ ∃ q ∈ l, q.1 = id ∧ p = (id, f q.2)) ∨
    (p.1 ≠ id ∧ p ∈ l) := by
  rcases List.mem_map.1 hp with ⟨q, hq, hEq⟩
  by_cases h : q.1 = id
  · left
    rw [if_pos h] at hEq
    refine ⟨by rw [← hEq]; exact h, q, hq, h, by rw [← hEq, h]⟩
  · right
    rw [if_neg h] at hEq
    exact ⟨by rw [← hEq]; exact h, hEq ▸ hq⟩

/-- C4: on a non-obsolete request, `finish_request_failed` bans the
request's source; if that leaves every source banned, all sources are
unbanned within the same call; hence at least one source is unbanned when
the call returns. -/
theorem C4_finish_request_failed_unban (st st' : OptimisticState)
    (rid sid : Nat)
    (hobs : findReq st.obsoleteRequests rid = Option.none)
    (hq : findReq st.queueRequests rid = some sid)
    (hne : st.sources ≠ [])
    (h : finish_request_failed st rid = some st') :
    (∀ p ∈ st'.sources, p.1 = sid →
       (p.2.banned = true ∨ ∀ q ∈ st'.sources, q.2.banned = false)) ∧
    ((∀ p ∈ st.sources, p.1 ≠ sid → p.2.banned = true) →
       ∀ p ∈ st'.sources, p.2.banned = false) ∧
    (∃ p ∈ st'.sources, p.2.banned = false) := by
  classical
  unfold finish_request_failed at h
  simp only [hobs, hq] at h
  unfold updateSource at h
  by_cases hany1 : st.sources.any (fun p => p.1 == sid)
  · rw [if_pos hany1] at h
    simp only [Option.some_bind] at h
    rw [any_eq_of_keys_eq sid (keys_map_update st.sources sid decOngoing),
      if_pos hany1] at h
    simp only [Option.map_some', Option.some.injEq] at h
    set s2 : List (Nat × Source) :=
      (st.sources.map
          (fun p => if p.1 = sid then (p.1, decOngoing p.2) else p)).map
        (fun p => if p.1 = sid then (p.1, setBanned true p.2) else p)
      with hs2
    have hsid_banned : ∀ p ∈ s2, p.1 = sid → p.2.banned = true := by
      intro p hp hpid
      rcases mem_map_update hp with ⟨_, q, _, _, hpe⟩ | ⟨hne', _⟩
      · rw [hpe]; rfl
      · exact absurd hpid hne'
    have hother : ∀ p ∈ s2, p.1 ≠ sid → p ∈ st.sources := by
      intro p hp hpid
      rcases mem_map_update hp with ⟨hpe, _⟩ | ⟨_, hp1⟩
      · exact absurd hpe hpid
      · rcases mem_map_update hp1 with ⟨hpe, _⟩ | ⟨_, hp2⟩
        · exact absurd hpe hpid
        · exact hp2
    have hs2ne : s2 ≠ [] := by
      rw [hs2]
      simpa using hne
    have hst' : st'.sources = unbanAllIfAllBanned s2 := by rw [← h]
    unfold unbanAllIfAllBanned at hst'
    by_cases hall : s2.all (fun p => p.2.banned)
    · rw [if_pos hall] at hst'
      have hallfalse : ∀ p ∈ st'.sources, p.2.banned = false := by
        intro p hp
        rw [hst'] at hp
        rcases List.mem_map.1 hp with ⟨q, _, hEq⟩
        rw [← hEq]; rfl
      refine ⟨fun p hp _ => Or.inr hallfalse, fun _ => hallfalse, ?_⟩
      rcases List.exists_mem_of_ne_nil _ hs2ne with ⟨q, hqmem⟩
      exact ⟨(q.1, setBanned false q.2),
        hst' ▸ List.mem_map.2 ⟨q, hqmem, rfl⟩, rfl⟩
    · rw [if_neg hall] at hst'
      have hnotall := hall
      rw [List.all_eq_true] at hnotall
      push_neg at hnotall
      rcases hnotall with ⟨q, hqmem, hqban⟩
      refine ⟨?_, ?_, ?_⟩
      · intro p hp hpid
        exact Or.inl (hsid_banned p (hst' ▸ hp) hpid)
      · intro hothers
        exfalso
        apply hall
        rw [List.all_eq_true]
        intro p hp
        by_cases hpid : p.1 = sid
        · simp [hsid_banned p hp hpid]
        · simpa using hothers p (hother p hp hpid) hpid
      · exact ⟨q, hst' ▸ hqmem, by simpa using hqban⟩
  · rw [if_neg hany1] at h
    simp at h

/-- Concrete instantiation of `C4_finish_request_failed_unban`: failing
the only request of the only (previously unbanned) source bans it,
triggering the unban-all step, so the source ends unbanned. -/
theorem C4_finish_request_failed_unban_witness :
    finish_request_failed ⟨[(0, ⟨5, false, 1⟩)], [(0, 0)], [], 1, 1⟩ 0
      = some ⟨[(0, ⟨5, false, 0⟩)], [], [], 1, 1⟩ ∧
    ∃ p ∈ (⟨[(0, ⟨5, false, 0⟩)], [], [], 1, 1⟩ :
        OptimisticState).sources, p.2.banned = false := by
  have h : finish_request_failed ⟨[(0, ⟨5, false, 1⟩)], [(0, 0)], [], 1, 1⟩ 0
      = some ⟨[(0, ⟨5, false, 0⟩)], [], [], 1, 1⟩ := by decide
  exact ⟨h, (C4_finish_request_failed_unban _ _ 0 0 (by decide) (by decide)
    (by decide) h).2.2⟩

/-- `OptimisticSync::add_source` (optimistic.rs lines 413-431). -/
def add_source (st : OptimisticState) (best : Nat) : OptimisticState × Nat :=
  ({ st with
      sources := st.sources ++ [(st.nextSourceId, ⟨best, false, 0⟩)],
      nextSourceId := st.nextSourceId + 1 }, st.nextSourceId)

/-- `OptimisticSync::insert_request` (optimistic.rs lines 569-603):
increments the source's counter, allocates the next request id, and
records the request either in the verification queue or — when the queue
rejects it — in the obsolete set.

Modelled from the spec: `verification_queue::insert_request` is not under
`src/`; whether it returns `Ok` or `Err` is abstracted by the
`queueAccepts` argument. -/
def insert_request (st : OptimisticState) (sourceId : Nat)
    (queueAccepts : Bool) : Option (OptimisticState × Nat) :=
  (updateSource st.sources sourceId incOngoing).map
    (fun sources =>
      if queueAccepts then
        ({ st with
            sources := sources,
            queueRequests := st.queueRequests ++ [(st.nextRequestId, sourceId)],
            nextRequestId := st.nextRequestId + 1 }, st.nextRequestId)
      else
        ({ st with
            sources := sources,
            obsoleteRequests :=
              st.obsoleteRequests ++ [(st.nextRequestId, sourceId)],
            nextRequestId := st.nextRequestId + 1 }, st.nextRequestId))

/-- `OptimisticSync::remove_source` (optimistic.rs lines 474-505): drops
the source's obsolete requests, removes the source itself, and drains the
verification queue's requests for that source. -/
def remove_source (st : OptimisticState) (sid : Nat) :
    Option OptimisticState :=
  if st.sources.any (fun p => p.1 == sid) then
    some { st with
      sources := st.sources.filter (fun p => p.1 ≠ sid),
      queueRequests := st.queueRequests.filter (fun r => r.2 ≠ sid),
      obsoleteRequests := st.obsoleteRequests.filter (fun r => r.2 ≠ sid) }
  else Option.none

/-- All unfinished requests: those recorded in the verification queue plus
the obsolete ones (cf. `source_num_ongoing_requests`, optimistic.rs lines
518-529). -/
def reqs (st : OptimisticState) : List (Nat × Nat) :=
  st.queueRequests ++ st.obsoleteRequests

/-- Bookkeeping invariant of the Optimistic engine: source keys are
distinct and below the allocator; request ids are distinct and below the
allocator; every request's source exists; and every source's
`num_ongoing_requests` counter equals the number of unfinished requests
attributed to it. -/
def Inv (st : OptimisticState) : Prop :=
  (keys st.sources).Nodup ∧
  (∀ p ∈ st.sources, p.1 < st.nextSourceId) ∧
  ((reqs st).map Prod.fst).Nodup ∧
  (∀ r ∈ reqs st, r.1 < st.nextRequestId) ∧
  (∀ r ∈ reqs st, ∃ p ∈ st.sources, p.1 = r.2) ∧
  (∀ p ∈ st.sources, p.2.num_ongoing_requests
      = (reqs st).countP (fun r => r.2 == p.1))

theorem findReq_mem {l : List (Nat × Nat)} {rid sid : Nat}
    (h : findReq l rid = some sid) : (rid, sid) ∈ l := by
  unfold findReq at h
  rcases hfind : l.find? (fun r => r.1 == rid) with _ | r0
  · rw [hfind] at h; simp at h
  · rw [hfind] at h
    simp only [Option.map_some', Option.some.injEq] at h
    have hmem := List.mem_of_find?_eq_some hfind
    have hpred := List.find?_some hfind
    simp only [beq_iff_eq] at hpred
    have : r0 = (rid, sid) := by
      rcases r0 with ⟨a, b⟩
      simp only at hpred h
      rw [hpred, h]
    exact this ▸ hmem

theorem removeReq_of_not_mem {l : List (Nat × Nat)} {rid : Nat}
    (h : rid ∉ l.map Prod.fst) : removeReq l rid = l := by
  unfold removeReq
  apply List.filter_eq_self.2
  intro a ha
  simp only [ne_eq, decide_not, Bool.not_eq_eq_eq_not, Bool.not_true,
    decide_eq_false_iff_not]
  intro hEq
  exact h (hEq ▸ List.mem_map_of_mem Prod.fst ha)

theorem countP_removeReq {l : List (Nat × Nat)} {rid sid : Nat} (k : Nat)
    (hnd : (l.map Prod.fst).Nodup) (hmem : (rid, sid) ∈ l) :
    l.countP (fun r => r.2 == k)
      = (removeReq l rid).countP (fun r => r.2 == k)
        + (if sid = k then 1 else 0) := by
  induction l with
  | nil => simp at hmem
  | cons a l ih =>
      rcases List.map_cons Prod.fst a l ▸ hnd with hnd'
      have hndl : (l.map Prod.fst).Nodup := (List.nodup_cons.1 hnd').2
      have hnota : a.1 ∉ l.map Prod.fst := (List.nodup_cons.1 hnd').1
      by_cases hfst : a.1 = rid
      · have ha : a = (rid, sid) := by
          rcases List.mem_cons.1 hmem with hEq | hmeml
          · exact hEq.symm
          · exact absurd (List.mem_map_of_mem Prod.fst hmeml)
              (by rw [← hfst]; exact hnota)
        have hrem : removeReq (a :: l) rid = l := by
          unfold removeReq
          rw [List.filter_cons]
          have h1 : ¬(a.1 ≠ rid) := by simp [hfst]
          have h2 : removeReq l rid = l :=
            removeReq_of_not_mem (by rw [← hfst]; exact hnota)
          unfold removeReq at h2
          simp [h1, h2]
          intro x y hxy hx
          exact hnota (by rw [hfst, ← hx]; exact List.mem_map_of_mem Prod.fst hxy)
        rw [hrem, List.countP_cons, ha]
        simp only
        by_cases hk : sid = k <;> simp [hk]
      · have hmeml : (rid, sid) ∈ l := by
          rcases List.mem_cons.1 hmem with hEq | hm
          · exact absurd (congrArg Prod.fst hEq.symm) hfst
          · exact hm
        have hrem : removeReq (a :: l) rid = a :: removeReq l rid := by
          unfold removeReq
          rw [List.filter_cons]
          simp [hfst]
        rw [hrem, List.countP_cons, List.countP_cons, ih hndl hmeml]
        omega

theorem mem_keys_iff {S : List (Nat × Source)} {k : Nat} :
    k ∈ keys S ↔ ∃ p ∈ S, p.1 = k := by
  simp [keys, List.mem_map]

theorem countP_filter_ne_snd (l : List (Nat × Nat)) (k sid : Nat)
    (hk : k ≠ sid) :
    (l.filter (fun r => r.2 ≠ sid)).countP (fun r => r.2 == k)
      = l.countP (fun r => r.2 == k) := by
  induction l with
  | nil => rfl
  | cons a l ih =>
      by_cases ha : a.2 = sid
      · have h2 : (a.2 == k) = false := by
          simp only [beq_eq_false_iff_ne, ne_eq, ha]
          exact fun hEq => hk hEq.symm
        rw [List.filter_cons, if_neg (by simp [ha]), List.countP_cons, h2,
          ih]
        simp
      · rw [List.filter_cons, if_pos (by simp [ha]), List.countP_cons,
          List.countP_cons, ih]

theorem keys_map_snd (S : List (Nat × Source)) (f : Nat × Source → Source) :
    keys (S.map (fun p => (p.1, f p))) = keys S := by
  induction S with
  | nil => rfl
  | cons a S ih => simpa [keys] using ih

/-- Master lemma: `Inv` carries over to a state whose request list gained
one fresh request for an existing source `sid`, with that source's
counter incremented. -/
theorem Inv_extend_req (st st' : OptimisticState)
    (hInv : Inv st) (sid : Nat)
    (hsrc : st'.sources = st.sources.map
      (fun p => if p.1 = sid then (p.1, incOngoing p.2) else p))
    (hsid : ∃ p ∈ st.sources, p.1 = sid)
    (hreq : (reqs st').Perm (reqs st ++ [(st.nextRequestId, sid)]))
    (hnextR : st'.nextRequestId = st.nextRequestId + 1)
    (hnextS : st'.nextSourceId = st.nextSourceId) : Inv st' := by
  obtain ⟨h1, h2, h3, h4, h5, h6⟩ := hInv
  have hmem' : ∀ r ∈ reqs st', r ∈ reqs st ∨ r = (st.nextRequestId, sid) := by
    intro r hr
    have := hreq.mem_iff.1 hr
    rcases List.mem_append.1 this with h | h
    · exact Or.inl h
    · exact Or.inr (by simpa using h)
  refine ⟨?_, ?_, ?_, ?_, ?_, ?_⟩
  · rw [hsrc, keys_map_update st.sources sid incOngoing]; exact h1
  · intro p hp
    rw [hsrc] at hp
    rw [hnextS]
    rcases mem_map_update hp with ⟨hpk, q, hq, hqk, hpe⟩ | ⟨_, hp'⟩
    · rw [hpe]; rw [← hqk]; exact h2 q hq
    · exact h2 p hp'
  · have hperm : ((reqs st').map Prod.fst).Perm
        ((reqs st).map Prod.fst ++ [st.nextRequestId]) := by
      simpa using hreq.map Prod.fst
    rw [hperm.nodup_iff, List.nodup_append]
    refine ⟨h3, List.nodup_singleton _, ?_⟩
    intro a ha hb
    simp only [List.mem_singleton] at hb
    subst hb
    rcases List.mem_map.1 ha with ⟨r, hr, hrEq⟩
    exact absurd (hrEq ▸ h4 r hr) (lt_irrefl _)
  · intro r hr
    rw [hnextR]
    rcases hmem' r hr with h | h
    · exact Nat.lt_succ_of_lt (h4 r h)
    · rw [h]; exact Nat.lt_succ_self _
  · intro r hr
    have hex : ∃ p ∈ st.sources, p.1 = r.2 := by
      rcases hmem' r hr with h | h
      · exact h5 r h
      · rw [h]; exact hsid
    rcases hex with ⟨p, hp, hpk⟩
    refine ⟨(if p.1 = sid then (p.1, incOngoing p.2) else p), ?_, ?_⟩
    · rw [hsrc]; exact List.mem_map_of_mem _ hp
    · by_cases hps : p.1 = sid
      · rw [if_pos hps]; exact hpk
      · rw [if_neg hps]; exact hpk
  · intro p hp
    rw [hsrc] at hp
    have hcnt : ∀ k, (reqs st').countP (fun r => r.2 == k)
        = (reqs st).countP (fun r => r.2 == k)
          + (if sid = k then 1 else 0) := by
      intro k
      rw [hreq.countP_eq, List.countP_append]
      congr 1
      by_cases hk : sid = k <;> simp [hk]
    rcases mem_map_update hp with ⟨hpk, q, hq, hqk, hpe⟩ | ⟨hpk, hp'⟩
    · rw [hpe]
      simp only [incOngoing]
      rw [hcnt sid, ← hqk, ← h6 q hq, hqk]
      simp
    · rw [hcnt p.1, ← h6 p hp']
      simp [Ne.symm hpk]

/-- Master lemma: `Inv` carries over to a state that removed the request
`(rid, sid)` from the request lists and decremented that source's counter
(ban flags may change arbitrarily). -/
theorem Inv_remove_req (st st' : OptimisticState)
    (hInv : Inv st) (rid sid : Nat)
    (hmem : (rid, sid) ∈ reqs st)
    (hkeys : keys st'.sources = keys st.sources)
    (hsrcs : ∀ p' ∈ st'.sources, ∃ p ∈ st.sources, p'.1 = p.1 ∧
        p'.2.num_ongoing_requests
          = p.2.num_ongoing_requests - (if p.1 = sid then 1 else 0))
    (hreq : reqs st' = removeReq (reqs st) rid)
    (hnextR : st'.nextRequestId = st.nextRequestId)
    (hnextS : st'.nextSourceId = st.nextSourceId) : Inv st' := by
  obtain ⟨h1, h2, h3, h4, h5, h6⟩ := hInv
  have hsub : List.Sublist (reqs st') (reqs st) := by
    rw [hreq]; exact List.filter_sublist _
  refine ⟨?_, ?_, ?_, ?_, ?_, ?_⟩
  · rw [hkeys]; exact h1
  · intro p hp
    rcases hsrcs p hp with ⟨q, hq, hpk, _⟩
    rw [hnextS, hpk]; exact h2 q hq
  · exact h3.sublist (hsub.map Prod.fst)
  · intro r hr
    rw [hnextR]
    exact h4 r (hsub.mem hr)
  · intro r hr
    rcases h5 r (hsub.mem hr) with ⟨p, hp, hpk⟩
    have : r.2 ∈ keys st'.sources := by
      rw [hkeys]; exact mem_keys_iff.2 ⟨p, hp, hpk⟩
    exact mem_keys_iff.1 this
  · intro p' hp'
    rcases hsrcs p' hp' with ⟨p, hp, hpk, hnum⟩
    have hcnt := countP_removeReq p.1 h3 hmem
    have hbase := h6 p hp
    rw [hreq] at *
    rw [hnum, hbase, hpk]
    by_cases hps : p.1 = sid
    · rw [hps] at hcnt ⊢
      simp only [if_pos rfl] at hcnt ⊢
      omega
    · rw [if_neg hps]
      have : ¬(sid = p.1) := fun h => hps h.symm
      simp only [if_neg this] at hcnt
      omega

theorem Inv_add_source (st : OptimisticState) (hInv : Inv st) (best : Nat) :
    Inv (add_source st best).1 := by
  obtain ⟨h1, h2, h3, h4, h5, h6⟩ := hInv
  unfold add_source
  have hfresh : st.nextSourceId ∉ keys st.sources := by
    intro hmem
    rcases mem_keys_iff.1 hmem with ⟨p, hp, hpk⟩
    exact absurd (hpk ▸ h2 p hp) (lt_irrefl _)
  refine ⟨?_, ?_, h3, h4, ?_, ?_⟩
  · simp only [keys, List.map_append]
    rw [List.nodup_append]
    refine ⟨h1, List.nodup_singleton _, ?_⟩
    intro a ha hb
    simp only [List.map_cons, List.map_nil, List.mem_singleton] at hb
    exact hfresh (hb ▸ ha)
  · intro p hp
    rcases List.mem_append.1 hp with hp | hp
    · exact Nat.lt_succ_of_lt (h2 p hp)
    · simp only [List.mem_singleton] at hp
      rw [hp]
      exact Nat.lt_succ_self _
  · intro r hr
    rcases h5 r hr with ⟨p, hp, hpk⟩
    exact ⟨p, List.mem_append_left _ hp, hpk⟩
  · intro p hp
    rcases List.mem_append.1 hp with hp | hp
    · exact h6 p hp
    · simp only [List.mem_singleton] at hp
      rw [hp]
      simp only
      symm
      rw [List.countP_eq_zero]
      intro r hr
      rcases h5 r hr with ⟨q, hq, hqk⟩
      have : r.2 < st.nextSourceId := hqk ▸ h2 q hq
      simp only [beq_iff_eq]
      omega

theorem Inv_insert_request (st : OptimisticState) (hInv : Inv st)
    (sid : Nat) (qa : Bool) (out : OptimisticState × Nat)
    (h : insert_request st sid qa = some out) : Inv out.1 := by
  unfold insert_request updateSource at h
  by_cases hany : st.sources.any (fun p => p.1 == sid)
  · rw [if_pos hany] at h
    simp only [Option.map_some', Option.some.injEq] at h
    have hsid : ∃ p ∈ st.sources, p.1 = sid := by
      rcases List.any_eq_true.1 hany with ⟨p, hp, hpe⟩
      exact ⟨p, hp, by simpa using hpe⟩
    cases qa
    · rw [if_neg (by simp)] at h
      rw [← h]
      refine Inv_extend_req st _ hInv sid rfl hsid ?_ rfl rfl
      simp only [reqs, List.append_assoc]
      exact List.Perm.refl _
    · rw [if_pos rfl] at h
      rw [← h]
      refine Inv_extend_req st _ hInv sid rfl hsid ?_ rfl rfl
      simp only [reqs]
      rw [List.append_assoc, List.append_assoc]
      exact List.Perm.append_left _ List.perm_append_comm
  · rw [if_neg hany] at h
    simp at h

theorem disjoint_req_ids (st : OptimisticState) (hInv : Inv st) (rid : Nat) :
    ¬(rid ∈ st.queueRequests.map Prod.fst ∧
      rid ∈ st.obsoleteRequests.map Prod.fst) := by
  rintro ⟨hq, ho⟩
  obtain ⟨_, _, h3, _, _, _⟩ := hInv
  rw [reqs, List.map_append, List.nodup_append] at h3
  exact h3.2.2 hq ho

theorem Inv_finish_request_success (st st' : OptimisticState)
    (hInv : Inv st) (rid : Nat)
    (h : finish_request_success st rid = some st') : Inv st' := by
  unfold finish_request_success at h
  rcases hobs : findReq st.obsoleteRequests rid with _ | sid
  · rcases hq : findReq st.queueRequests rid with _ | sid
    · simp [hobs, hq] at h
    · simp only [hobs, hq] at h
      unfold updateSource at h
      by_cases hany : st.sources.any (fun p => p.1 == sid)
      · rw [if_pos hany] at h
        simp only [Option.map_some', Option.some.injEq] at h
        have hmemq := findReq_mem hq
        refine Inv_remove_req st st' hInv rid sid
          (List.mem_append_left _ hmemq) ?_ ?_ ?_ ?_ ?_
        · rw [← h]; exact keys_map_update st.sources sid decOngoing
        · rw [← h]
          intro p' hp'
          rcases mem_map_update hp' with ⟨hpk, q, hq', hqk, hpe⟩ | ⟨hpk, hp''⟩
          · refine ⟨q, hq', ?_, ?_⟩
            · rw [hpe, hqk]
            · rw [hpe, if_pos hqk]; rfl
          · refine ⟨p', hp'', rfl, ?_⟩
            rw [if_neg hpk]; omega
        · rw [← h]
          simp only [reqs, removeReq, List.filter_append]
          congr 1
          symm
          apply removeReq_of_not_mem
          intro hrido
          exact disjoint_req_ids st hInv rid
            ⟨List.mem_map_of_mem Prod.fst hmemq, hrido⟩
        · rw [← h]
        · rw [← h]
      · rw [if_neg hany] at h
        simp at h
  · simp only [hobs] at h
    unfold updateSource at h
    by_cases hany : st.sources.any (fun p => p.1 == sid)
    · rw [if_pos hany] at h
      simp only [Option.map_some', Option.some.injEq] at h
      have hmemo := findReq_mem hobs
      refine Inv_remove_req st st' hInv rid sid
        (List.mem_append_right _ hmemo) ?_ ?_ ?_ ?_ ?_
      · rw [← h]; exact keys_map_update st.sources sid decOngoing
      · rw [← h]
        intro p' hp'
        rcases mem_map_update hp' with ⟨hpk, q, hq', hqk, hpe⟩ | ⟨hpk, hp''⟩
        · refine ⟨q, hq', ?_, ?_⟩
          · rw [hpe, hqk]
          · rw [hpe, if_pos hqk]; rfl
        · refine ⟨p', hp'', rfl, ?_⟩
          rw [if_neg hpk]; omega
      · rw [← h]
        simp only [reqs, removeReq, List.filter_append]
        congr 1
        apply (removeReq_of_not_mem ?_).symm
        intro hridq
        exact disjoint_req_ids st hInv rid
          ⟨hridq, List.mem_map_of_mem Prod.fst hmemo⟩
      · rw [← h]
      · rw [← h]
    · rw [if_neg hany] at h
      simp at h

theorem keys_unban (S : List (Nat × Source)) :
    keys (unbanAllIfAllBanned S) = keys S := by
  unfold unbanAllIfAllBanned
  by_cases hall : S.all (fun p => p.2.banned)
  · rw [if_pos hall]
    exact keys_map_snd S (fun p => setBanned false p.2)
  · rw [if_neg hall]

theorem num_banned_chain (l : List (Nat × Source)) (sid : Nat) :
    ∀ p' ∈ unbanAllIfAllBanned
        ((l.map (fun p => if p.1 = sid then (p.1, decOngoing p.2) else p)).map
          (fun p => if p.1 = sid then (p.1, setBanned true p.2) else p)),
      ∃ p ∈ l, p'.1 = p.1 ∧ p'.2.num_ongoing_requests
        = p.2.num_ongoing_requests - (if p.1 = sid then 1 else 0) := by
  have step2 : ∀ q' ∈ ((l.map
        (fun p => if p.1 = sid then (p.1, decOngoing p.2) else p)).map
          (fun p => if p.1 = sid then (p.1, setBanned true p.2) else p)),
      ∃ p ∈ l, q'.1 = p.1 ∧ q'.2.num_ongoing_requests
        = p.2.num_ongoing_requests - (if p.1 = sid then 1 else 0) := by
    intro q' hq'
    rcases mem_map_update hq' with ⟨hk, q, hq, hqk, hqe⟩ | ⟨hk, hq1⟩
    · rcases mem_map_update hq with ⟨hk2, p, hp, hpk, hpe⟩ | ⟨hk2, hp1⟩
      · refine ⟨p, hp, ?_, ?_⟩
        · rw [hqe, ← hpk]
        · rw [hqe, hpe, if_pos hpk]; rfl
      · exact absurd hqk hk2
    · rcases mem_map_update hq1 with ⟨hk2, _⟩ | ⟨hk2, hq2⟩
      · exact absurd hk2 hk
      · exact ⟨q', hq2, rfl, by rw [if_neg hk]; omega⟩
  intro p' hp'
  unfold unbanAllIfAllBanned at hp'
  by_cases hall : ((l.map
        (fun p => if p.1 = sid then (p.1, decOngoing p.2) else p)).map
          (fun p => if p.1 = sid then (p.1, setBanned true p.2) else p)).all
        (fun p => p.2.banned)
  · rw [if_pos hall] at hp'
    rcases List.mem_map.1 hp' with ⟨q', hq', hqe⟩
    rcases step2 q' hq' with ⟨p, hp, hk, hnum⟩
    exact ⟨p, hp, by rw [← hqe]; exact hk, by rw [← hqe]; exact hnum⟩
  · rw [if_neg hall] at hp'
    exact step2 p' hp'

theorem Inv_finish_request_failed (st st' : OptimisticState)
    (hInv : Inv st) (rid : Nat)
    (h : finish_request_failed st rid = some st') : Inv st' := by
  unfold finish_request_failed at h
  rcases hobs : findReq st.obsoleteRequests rid with _ | sid
  · rcases hq : findReq st.queueRequests rid with _ | sid
    · simp [hobs, hq] at h
    · simp only [hobs, hq] at h
      unfold updateSource at h
      by_cases hany : st.sources.any (fun p => p.1 == sid)
      · rw [if_pos hany] at h
        simp only [Option.some_bind] at h
        rw [any_eq_of_keys_eq sid
          (keys_map_update st.sources sid decOngoing), if_pos hany] at h
        simp only [Option.map_some', Option.some.injEq] at h
        have hmemq := findReq_mem hq
        refine Inv_remove_req st st' hInv rid sid
          (List.mem_append_left _ hmemq) ?_ ?_ ?_ ?_ ?_
        · rw [← h]
          show keys (unbanAllIfAllBanned _) = _
          rw [keys_unban,
            keys_map_update _ sid (setBanned true),
            keys_map_update _ sid decOngoing]
        · rw [← h]
          exact num_banned_chain st.sources sid
        · rw [← h]
          simp only [reqs, removeReq, List.filter_append]
          congr 1
          symm
          apply removeReq_of_not_mem
          intro hrido
          exact disjoint_req_ids st hInv rid
            ⟨List.mem_map_of_mem Prod.fst hmemq, hrido⟩
        · rw [← h]
        · rw [← h]
      · rw [if_neg hany] at h
        simp at h
  · simp only [hobs] at h
    unfold updateSource at h
    by_cases hany : st.sources.any (fun p => p.1 == sid)
    · rw [if_pos hany] at h
      simp only [Option.map_some', Option.some.injEq] at h
      have hmemo := findReq_mem hobs
      refine Inv_remove_req st st' hInv rid sid
        (List.mem_append_right _ hmemo) ?_ ?_ ?_ ?_ ?_
      · rw [← h]; exact keys_map_update st.sources sid decOngoing
      · rw [← h]
        intro p' hp'
        rcases mem_map_update hp' with ⟨hpk, q, hq', hqk, hpe⟩ | ⟨hpk, hp''⟩
        · refine ⟨q, hq', ?_, ?_⟩
          · rw [hpe, hqk]
          · rw [hpe, if_pos hqk]; rfl
        · refine ⟨p', hp'', rfl, ?_⟩
          rw [if_neg hpk]; omega
      · rw [← h]
        simp only [reqs, removeReq, List.filter_append]
        congr 1
        apply (removeReq_of_not_mem ?_).symm
        intro hridq
        exact disjoint_req_ids st hInv rid
          ⟨hridq, List.mem_map_of_mem Prod.fst hmemo⟩
      · rw [← h]
      · rw [← h]
    · rw [if_neg hany] at h
      simp at h

theorem Inv_remove_source (st st' : OptimisticState) (hInv : Inv st)
    (sid : Nat) (h : remove_source st sid = some st') : Inv st' := by
  obtain ⟨h1, h2, h3, h4, h5, h6⟩ := hInv
  unfold remove_source at h
  by_cases hany : st.sources.any (fun p => p.1 == sid)
  · rw [if_pos hany] at h
    simp only [Option.some.injEq] at h
    rw [← h]
    have hreq' : (st.queueRequests.filter (fun r => r.2 ≠ sid)
          ++ st.obsoleteRequests.filter (fun r => r.2 ≠ sid))
        = (reqs st).filter (fun r => r.2 ≠ sid) := by
      rw [reqs, List.filter_append]
    refine ⟨?_, ?_, ?_, ?_, ?_, ?_⟩
    · exact h1.sublist ((List.filter_sublist _).map Prod.fst)
    · intro p hp
      exact h2 p (List.mem_of_mem_filter hp)
    · show ((st.queueRequests.filter _ ++ st.obsoleteRequests.filter _).map
        Prod.fst).Nodup
      rw [hreq']
      exact h3.sublist ((List.filter_sublist _).map Prod.fst)
    · intro r hr
      show r.1 < st.nextRequestId
      rw [show reqs { st with
          sources := st.sources.filter (fun p => p.1 ≠ sid),
          queueRequests := st.queueRequests.filter (fun r => r.2 ≠ sid),
          obsoleteRequests := st.obsoleteRequests.filter
            (fun r => r.2 ≠ sid) }
        = (reqs st).filter (fun r => r.2 ≠ sid) from hreq'] at hr
      exact h4 r (List.mem_of_mem_filter hr)
    · intro r hr
      rw [show reqs { st with
          sources := st.sources.filter (fun p => p.1 ≠ sid),
          queueRequests := st.queueRequests.filter (fun r => r.2 ≠ sid),
          obsoleteRequests := st.obsoleteRequests.filter
            (fun r => r.2 ≠ sid) }
        = (reqs st).filter (fun r => r.2 ≠ sid) from hreq'] at hr
      rcases List.mem_filter.1 hr with ⟨hrm, hrc⟩
      rcases h5 r hrm with ⟨p, hp, hpk⟩
      refine ⟨p, List.mem_filter.2 ⟨hp, ?_⟩, hpk⟩
      simp only [decide_eq_true_eq] at hrc ⊢
      rw [hpk]; exact hrc
    · intro p hp
      rcases List.mem_filter.1 hp with ⟨hpm, hpc⟩
      simp only [decide_eq_true_eq] at hpc
      rw [show reqs { st with
          sources := st.sources.filter (fun p => p.1 ≠ sid),
          queueRequests := st.queueRequests.filter (fun r => r.2 ≠ sid),
          obsoleteRequests := st.obsoleteRequests.filter
            (fun r => r.2 ≠ sid) }
        = (reqs st).filter (fun r => r.2 ≠ sid) from hreq']
      rw [countP_filter_ne_snd (reqs st) p.1 sid hpc]
      exact h6 p hpm
  · rw [if_neg hany] at h
    simp at h

/-- C8: after each of the public operations `add_source`,
`insert_request`, `finish_request_success`, `finish_request_failed` and
`remove_source`, every remaining request's source exists in the source
registry and each source's `num_ongoing_requests` counter equals the
number of unfinished requests attributed to it (requests recorded in the
verification queue plus obsolete requests). -/
theorem C8_request_source_accounting (st : OptimisticState)
    (hInv : Inv st) :
    (∀ best, Inv (add_source st best).1) ∧
    (∀ sid qa out, insert_request st sid qa = some out → Inv out.1) ∧
    (∀ rid st', finish_request_success st rid = some st' → Inv st') ∧
    (∀ rid st', finish_request_failed st rid = some st' → Inv st') ∧
    (∀ sid st', remove_source st sid = some st' → Inv st') :=
  ⟨Inv_add_source st hInv,
   fun sid qa out h => Inv_insert_request st hInv sid qa out h,
   fun rid st' h => Inv_finish_request_success st st' hInv rid h,
   fun rid st' h => Inv_finish_request_failed st st' hInv rid h,
   fun sid st' h => Inv_remove_source st st' hInv sid h⟩

/-- Concrete instantiation of `C8_request_source_accounting`: starting
from the empty engine, adding one source preserves the invariant. -/
theorem C8_request_source_accounting_witness :
    Inv ⟨[], [], [], 0, 0⟩ ∧ Inv (add_source ⟨[], [], [], 0, 0⟩ 9).1 := by
  have h0 : Inv ⟨[], [], [], 0, 0⟩ := by
    refine ⟨by simp [keys], by simp, by simp [reqs], by simp [reqs],
      by simp [reqs], by simp [reqs]⟩
  exact ⟨h0, (C8_request_source_accounting _ h0).1 9⟩

end Optimistic

namespace AllForks

/-- Decoded block header as used by the engine: `number` and
`parent_hash` (the external header codec is out of scope; hashes are
abstract `Nat`s). -/
structure Header where
  number : Nat
  parent_hash : Nat
deriving DecidableEq, Repr

/-- One block of an ancestry-search response: its hash — which
`hash_from_scale_encoded_header` computes even for undecodable bytes —
its decoded header when `header::decode` succeeds, and its
justifications. -/
structure ResponseBlock where
  hash : Nat
  decoded : Option Header
  justifications : List JustEntry
deriving DecidableEq, Repr

/-- Per-source finality-proof slots (`Source` in all_forks.rs lines
196-215; the opaque user data is omitted). -/
structure SourceFP where
  unverified_finality_proofs : SourcePendingJustificationProofs
  pending_finality_proofs : SourcePendingJustificationProofs
deriving DecidableEq, Repr

/-- An entry of the disjoint (unverified-block) set.

Modelled from the spec: the `pending_blocks`/`disjoint` modules are not
under `src/`; per spec §3, an unverified block is keyed by
(height, hash), knows its parent hash once its header is known, and has a
bad flag. -/
structure DisjointEntry where
  height : Nat
  hash : Nat
  parent_hash : Option Nat
  bad : Bool
deriving DecidableEq, Repr

/-- State of the `AllForksSync` engine.  `treeBlocks` is the set of
hashes of the external tree's verified non-finalized blocks;
`knownBlocks` is the source-knows-block relation `(source, height,
hash)`; `sourceBest` maps a source to its best `(height, hash)`. -/
structure AllForksState where
  finalizedHeight : Nat
  finalizedHash : Nat
  treeBlocks : List Nat
  disjoint : List DisjointEntry
  knownBlocks : List (Nat × Nat × Nat)
  sourceBest : List (Nat × Nat × Nat)
  sources : List (Nat × SourceFP)
  banned_blocks : List Nat
deriving DecidableEq, Repr

/-- `Config` for the AllForks engine (all_forks.rs lines 100-170).  The
pre-allocation capacities, `block_number_bytes`,
`allow_unknown_consensus_engines` and `full` have no semantic content in
this model and are omitted; `chain_information` is reduced to the
finalized block's height and hash. -/
structure Config where
  finalized_block_height : Nat
  finalized_block_hash : Nat
  max_disjoint_headers : Nat
  banned_blocks : List Nat
deriving DecidableEq, Repr

/-- `AllForksSync::new` (all_forks.rs lines 422-449): builds the empty
chain and pending-blocks structures.  Note that
`config.max_disjoint_headers` is not forwarded anywhere by the source. -/
def AllForksSync_new (config : Config) : AllForksState :=
  { finalizedHeight := config.finalized_block_height
    finalizedHash := config.finalized_block_hash
    treeBlocks := []
    disjoint := []
    knownBlocks := []
    sourceBest := []
    sources := []
    banned_blocks := config.banned_blocks }

/-- `add_known_block_to_source` (all_forks.rs lines 675-679 /
pending_blocks): no effect if the height is inferior or equal to the
finalized height or if the pair is already known.

Modelled from the spec for the `pending_blocks` internals. -/
def add_known_block_to_source (st : AllForksState) (src height hash : Nat) :
    AllForksState :=
  if height ≤ st.finalizedHeight then st
  else if (src, height, hash) ∈ st.knownBlocks then st
  else { st with knownBlocks := (src, height, hash) :: st.knownBlocks }

/-- `add_known_block_to_source_and_set_best`: additionally records the
block as the source's best block (also when it is below the finalized
height, cf. all_forks.rs lines 849-858).  Modelled from the spec. -/
def add_known_block_to_source_and_set_best (st : AllForksState)
    (src height hash : Nat) : AllForksState :=
  let st1 := add_known_block_to_source st src height hash
  { st1 with sourceBest :=
      (src, height, hash) ::
        st1.sourceBest.filter (fun b => b.1 ≠ src) }

/-- `remove_known_block_of_source` (pending_blocks; modelled from the
spec §4.2). -/
def remove_known_block_of_source (st : AllForksState)
    (src height hash : Nat) : AllForksState :=
  { st with knownBlocks :=
      st.knownBlocks.filter (fun k => k ≠ (src, height, hash)) }

/-- `contains_unverified_block` (pending_blocks; modelled from the
spec §4.1). -/
def contains_unverified_block (st : AllForksState) (height hash : Nat) :
    Bool :=
  st.disjoint.any (fun e => e.height == height && e.hash == hash)

/-- `insert_unverified_block` (pending_blocks; modelled from the spec
§4.1: idempotent by block id).  `parent` is `some` when the initial
state is `HeaderKnown`, `none` for `HeightHashKnown`. -/
def insert_unverified_block (st : AllForksState) (height hash : Nat)
    (parent : Option Nat) : AllForksState :=
  if contains_unverified_block st height hash then st
  else { st with disjoint := ⟨height, hash, parent, false⟩ :: st.disjoint }

/-- `set_unverified_block_header_known` (pending_blocks; modelled from
the spec §4.1: transitions `HeightHashKnown` to `HeaderKnown`). -/
def set_unverified_block_header_known (st : AllForksState)
    (height hash parent : Nat) : AllForksState :=
  { st with disjoint := st.disjoint.map (fun e =>
      if e.height = height ∧ e.hash = hash then
        { e with parent_hash := some parent }
      else e) }

/-- `mark_unverified_block_as_bad` (pending_blocks; modelled from the
spec §4.1: terminal transition). -/
def mark_unverified_block_as_bad (st : AllForksState) (height hash : Nat) :
    AllForksState :=
  { st with disjoint := st.disjoint.map (fun e =>
      if e.height = height ∧ e.hash = hash then { e with bad := true }
      else e) }

/-- `remove_unverified_block` (pending_blocks; modelled from the spec
§4.1). -/
def remove_unverified_block (st : AllForksState) (height hash : Nat) :
    AllForksState :=
  { st with disjoint := st.disjoint.filter (fun e =>
      ¬(e.height = height ∧ e.hash = hash)) }

/-- `remove_sources_known_block` (pending_blocks; modelled from the spec:
forgets the block from every source's known-blocks set). -/
def remove_sources_known_block (st : AllForksState) (height hash : Nat) :
    AllForksState :=
  { st with knownBlocks :=
      st.knownBlocks.filter (fun k => ¬(k.2.1 = height ∧ k.2.2 = hash)) }

/-- Entries eligible for garbage collection.

Modelled from the spec §4.1 (`unnecessary_unverified_blocks`): entries
whose parent block is also in the set; the spec's "or being downloaded"
part is not modelled (the request table carries no downloads in this
model). -/
def eligibleForGc (st : AllForksState) : List DisjointEntry :=
  st.disjoint.filter (fun e =>
    match e.parent_hash with
    | some ph => st.disjoint.any (fun p =>
        p.height + 1 == e.height && p.hash == ph)
    | Option.none => false)

/-- Comparison step of `pickMax`: keep the candidate of highest height,
ties broken by largest hash. -/
def pickBetter (e : DisjointEntry) : Option (Nat × Nat) → Option (Nat × Nat)
  | Option.none => some (e.height, e.hash)
  | some y =>
      if e.height > y.1 ∨ (e.height = y.1 ∧ e.hash > y.2) then
        some (e.height, e.hash)
      else some y

/-- First element yielded by `unnecessary_unverified_blocks().next()`:
the eligible entry of highest height, ties broken by largest hash
(modelled from the spec §4.1's highest-height-first order). -/
def pickMax : List DisjointEntry → Option (Nat × Nat)
  | [] => Option.none
  | e :: es => pickBetter e (pickMax es)

def unnecessary_head (st : AllForksState) : Option (Nat × Nat) :=
  pickMax (eligibleForGc st)

theorem pickMax_mem {l : List DisjointEntry} {y : Nat × Nat}
    (h : pickMax l = some y) : ∃ e ∈ l, e.height = y.1 ∧ e.hash = y.2 := by
  induction l with
  | nil => simp [pickMax] at h
  | cons e es ih =>
      unfold pickMax at h
      rcases hrec : pickMax es with _ | z
      · rw [hrec] at h
        simp only [pickBetter, Option.some.injEq] at h
        exact ⟨e, List.mem_cons_self e es, by rw [← h], by rw [← h]⟩
      · rw [hrec] at h
        simp only [pickBetter] at h
        split_ifs at h
        · simp only [Option.some.injEq] at h
          exact ⟨e, List.mem_cons_self e es, by rw [← h], by rw [← h]⟩
        · simp only [Option.some.injEq] at h
          rcases ih (h ▸ hrec) with ⟨e', he', hh⟩
          exact ⟨e', List.mem_cons_of_mem e he', hh⟩

theorem length_remove_lt (st : AllForksState) {height hash : Nat}
    (hmem : ∃ e ∈ st.disjoint, e.height = height ∧ e.hash = hash) :
    (remove_unverified_block (remove_sources_known_block st height hash)
        height hash).disjoint.length < st.disjoint.length := by
  rcases hmem with ⟨e, he, hh, hhs⟩
  unfold remove_unverified_block remove_sources_known_block
  simp only
  apply List.length_filter_lt_length_iff_exists.2
  exact ⟨e, he, by simp [hh, hhs]⟩

/-- The garbage-collection loop of `insert_and_update_source` /
`AddBlockVacant::insert` (all_forks.rs lines 1674-1698 and 1429-1456):
while at least 100 unverified blocks are stored, remove the first
unnecessary one, stopping when none remains.  Note the hard-coded
constant `100`. -/
def gcLoop (st : AllForksState) : AllForksState :=
  if 100 ≤ st.disjoint.length then
    match hu : unnecessary_head st with
    | Option.none => st
    | some (height, hash) =>
        gcLoop (remove_unverified_block
          (remove_sources_known_block st height hash) height hash)
  else st
termination_by st.disjoint.length
decreasing_by
  rcases pickMax_mem hu with ⟨e, he, hh⟩
  exact length_remove_lt st ⟨e, List.mem_of_mem_filter he, hh⟩

/-- A block announce committed through `AnnouncedBlockUnknown`. -/
structure Announce where
  source_id : Nat
  header : Header
  hash : Nat
  is_best : Bool
deriving DecidableEq, Repr

/-- `AnnouncedBlockUnknown::insert_and_update_source` (all_forks.rs lines
1620-1701): update the source's known blocks (and best block), insert
the announced block into the unverified set, mark it bad when banned or
provably off the finalized chain, then run the garbage-collection
loop. -/
def insert_and_update_source (st : AllForksState) (a : Announce) :
    AllForksState :=
  let st1 :=
    if a.is_best then
      add_known_block_to_source_and_set_best st a.source_id
        a.header.number a.hash
    else
      add_known_block_to_source st a.source_id a.header.number a.hash
  let st2 := add_known_block_to_source st1 a.source_id
    (a.header.number - 1) a.header.parent_hash
  let st3 := insert_unverified_block st2 a.header.number a.hash
    (some a.header.parent_hash)
  let st4 :=
    if a.hash ∈ st3.banned_blocks ∨
        (a.header.number = st3.finalizedHeight + 1 ∧
          a.header.parent_hash ≠ st3.finalizedHash) then
      mark_unverified_block_as_bad st3 a.header.number a.hash
    else st3
  gcLoop st4

theorem gcLoop_below_threshold (st : AllForksState)
    (h : st.disjoint.length < 100) : gcLoop st = st := by
  rw [gcLoop]
  rw [if_neg (by omega)]

/-- C1: counter-evidence against the configured disjoint-set cap.
`AllForksSync::new` drops `max_disjoint_headers` entirely — the built
state is independent of it — and the garbage-collection loop triggers
only at the hard-coded threshold 100: with `max_disjoint_headers = 0`, a
single committed block announce leaves one block in the disjoint set,
exceeding the configured cap, and no garbage collection runs. -/
theorem C1_max_disjoint_headers_ignored :
    (∀ cfg : Config, ∀ m₁ m₂ : Nat,
      AllForksSync_new { cfg with max_disjoint_headers := m₁ }
        = AllForksSync_new { cfg with max_disjoint_headers := m₂ }) ∧
    ((insert_and_update_source (AllForksSync_new ⟨0, 0, 0, []⟩)
        ⟨0, ⟨2, 99⟩, 100, false⟩).disjoint.length = 1 ∧
      (Config.max_disjoint_headers ⟨0, 0, 0, []⟩) = 0) := by
  refine ⟨fun cfg m₁ m₂ => rfl, ?_, rfl⟩
  show (gcLoop
    { finalizedHeight := 0, finalizedHash := 0, treeBlocks := [],
      disjoint := [⟨2, 100, some 99, false⟩],
      knownBlocks := [(0, 1, 99), (0, 2, 100)], sourceBest := [],
      sources := [], banned_blocks := [] }).disjoint.length = 1
  rw [gcLoop_below_threshold _ (by decide)]
  rfl

/-- `AncestrySearchResponseError` (all_forks.rs lines 1705-1737); the
payloads are irrelevant to the verified properties. -/
inductive AncestrySearchResponseError where
  | InvalidHeader
  | UnexpectedBlock
  | NotFinalizedChain
  | TooOld
deriving DecidableEq, Repr

/-- The three success variants of `AddBlock` (all_forks.rs lines
1242-1255). -/
inductive AddBlockKind where
  | AlreadyPending
  | UnknownBlock
  | AlreadyInChain
deriving DecidableEq, Repr

/-- `FinishAncestrySearch` (all_forks.rs lines 1083-1105). -/
structure FinishAncestrySearch where
  inner : AllForksState
  source_id : Nat
  any_progress : Bool
  index_in_response : Nat
  requested_block_hash : Nat
  requested_block_height : Nat
  expected_next_hash : Nat
  expected_next_height : Nat
deriving DecidableEq, Repr

/-- `AllForksSync::finish_ancestry_search` (all_forks.rs lines 773-801),
without the request-table removal (requests are not modelled). -/
def finish_ancestry_search (st : AllForksState) (source_id : Nat)
    (requested_block_height requested_block_hash : Nat) :
    FinishAncestrySearch :=
  { inner := st
    source_id := source_id
    any_progress := false
    index_in_response := 0
    requested_block_hash := requested_block_hash
    requested_block_height := requested_block_height
    expected_next_hash := requested_block_hash
    expected_next_height := requested_block_height }

/-- `FinishAncestrySearch::finish` (all_forks.rs lines 1225-1239): when
no progress was made, the requested block is removed from the source's
known-blocks set. -/
def FinishAncestrySearch.finish (t : FinishAncestrySearch) :
    AllForksState :=
  if !t.any_progress then
    remove_known_block_of_source t.inner t.source_id
      t.requested_block_height t.requested_block_hash
  else t.inner

/-- `FinishAncestrySearch::add_block` (all_forks.rs lines 1115-1213),
translated check for check in source order.  On success it returns the
`AddBlock` token content: the variant, the transaction (with
`any_progress` set), and the decoded header. -/
def FinishAncestrySearch.add_block (t : FinishAncestrySearch)
    (b : ResponseBlock) :
    Except (AncestrySearchResponseError × AllForksState)
      (AddBlockKind × FinishAncestrySearch × Header) :=
  if t.expected_next_hash ≠ b.hash then
    .error (.UnexpectedBlock, t.finish)
  else
    match b.decoded with
    | Option.none => .error (.InvalidHeader, t.finish)
    | some decoded_header =>
      if t.expected_next_height ≠ decoded_header.number then
        .error (.UnexpectedBlock, t.finish)
      else
        let t := { t with any_progress := true }
        if decoded_header.number ≤ t.inner.finalizedHeight then
          .error (.TooOld, t.finish)
        else if t.expected_next_hash ∈ t.inner.treeBlocks then
          .ok (.AlreadyInChain, t, decoded_header)
        else if decoded_header.number = t.inner.finalizedHeight + 1 ∧
            decoded_header.parent_hash ≠ t.inner.finalizedHash then
          .error (.NotFinalizedChain, t.finish)
        else if !contains_unverified_block t.inner decoded_header.number
            t.expected_next_hash then
          .ok (.UnknownBlock, t, decoded_header)
        else
          .ok (.AlreadyPending, t, decoded_header)

/-- Common tail of `AddBlockOccupied::replace` and
`AddBlockVacant::insert` (all_forks.rs lines 1354-1360 and 1458-1464):
advance the expected hash/height for the next iteration. -/
def advanceExpected (t : FinishAncestrySearch) (decoded_header : Header) :
    FinishAncestrySearch :=
  { t with
      expected_next_hash := decoded_header.parent_hash
      expected_next_height := t.expected_next_height - 1
      index_in_response := t.index_in_response + 1 }

/-- `AddBlockOccupied::replace` (all_forks.rs lines 1294-1361), without
the user-data exchange. -/
def AddBlockOccupied.replace (t : FinishAncestrySearch)
    (decoded_header : Header) (is_verified : Bool) :
    FinishAncestrySearch :=
  let st1 := add_known_block_to_source t.inner t.source_id
    decoded_header.number t.expected_next_hash
  let st2 := add_known_block_to_source st1 t.source_id
    (decoded_header.number - 1) decoded_header.parent_hash
  let st3 :=
    if is_verified then st2
    else set_unverified_block_header_known st2 decoded_header.number
      t.expected_next_hash decoded_header.parent_hash
  advanceExpected { t with inner := st3 } decoded_header

/-- Insertion of the response block's justifications into the source's
`unverified_finality_proofs` slot (all_forks.rs lines 1407-1414). -/
def insertUnverifiedProofs (st : AllForksState) (src : Nat) (n : Nat)
    (justifications : List JustEntry) : AllForksState :=
  match justifications with
  | [] => st
  | j :: js =>
      { st with
          sources := st.sources.map (fun q =>
            if q.1 = src then
              (q.1,
                { q.2 with
                    unverified_finality_proofs :=
                      q.2.unverified_finality_proofs.insert n
                        (FinalityProofs.justifications j js) })
            else q) }

/-- `AddBlockVacant::insert` (all_forks.rs lines 1379-1465), without the
user data. -/
def AddBlockVacant.insert (t : FinishAncestrySearch)
    (decoded_header : Header) (justifications : List JustEntry) :
    FinishAncestrySearch :=
  let st1 := add_known_block_to_source t.inner t.source_id
    decoded_header.number t.expected_next_hash
  let st2 := add_known_block_to_source st1 t.source_id
    (decoded_header.number - 1) decoded_header.parent_hash
  let st3 := insert_unverified_block st2 decoded_header.number
    t.expected_next_hash (some decoded_header.parent_hash)
  let st4 := insertUnverifiedProofs st3 t.source_id decoded_header.number
    justifications
  let st5 :=
    if t.expected_next_hash ∈ st4.banned_blocks then
      mark_unverified_block_as_bad st4 decoded_header.number
        t.expected_next_hash
    else st4
  let st6 := gcLoop st5
  advanceExpected { t with inner := st6 } decoded_header

/-- One response block processed and committed by the caller: `add_block`
followed by `replace`/`insert` on the returned token.  On error the
transaction has ended and the engine is returned. -/
def stepBlock (t : FinishAncestrySearch) (b : ResponseBlock) :
    Except AllForksState FinishAncestrySearch :=
  match t.add_block b with
  | .error (_, st) => .error st
  | .ok (.AlreadyInChain, t', dh) => .ok (AddBlockOccupied.replace t' dh true)
  | .ok (.AlreadyPending, t', dh) =>
      .ok (AddBlockOccupied.replace t' dh false)
  | .ok (.UnknownBlock, t', dh) =>
      .ok (AddBlockVacant.insert t' dh b.justifications)

/-- The blocks of a response accepted in sequence, as
`(hash, number, parent_hash)` triples: the run stops at the first
rejected block. -/
def acceptedBlocks (t : FinishAncestrySearch) :
    List ResponseBlock → List (Nat × Nat × Nat)
  | [] => []
  | b :: bs =>
      match stepBlock t b with
      | .error _ => []
      | .ok t' =>
          (b.hash, t.expected_next_height,
            match b.decoded with
            | some dh => dh.parent_hash
            | Option.none => 0) :: acceptedBlocks t' bs

/-- The chaining property of an accepted sequence: the first hash is the
expected one, each accepted block sits exactly one height below the
previous (the height is positive, so the decrement is exact), and each
subsequent hash equals the previous block's parent hash. -/
inductive Chain : Nat → Nat → List (Nat × Nat × Nat) → Prop where
  | nil (h n : Nat) : Chain h n []
  | cons (h n : Nat) (a : Nat × Nat × Nat) (rest : List (Nat × Nat × Nat))
      (hhash : a.1 = h) (hnum : a.2.1 = n) (hpos : 1 ≤ n)
      (hrest : Chain a.2.2 (n - 1) rest) : Chain h n (a :: rest)

theorem stepBlock_ok {t : FinishAncestrySearch} {b : ResponseBlock}
    {t' : FinishAncestrySearch} (h : stepBlock t b = .ok t') :
    b.hash = t.expected_next_hash ∧
    ∃ dh, b.decoded = some dh ∧ dh.number = t.expected_next_height ∧
      1 ≤ t.expected_next_height ∧
      t'.expected_next_hash = dh.parent_hash ∧
      t'.expected_next_height = t.expected_next_height - 1 := by
  unfold stepBlock FinishAncestrySearch.add_block at h
  by_cases h1 : t.expected_next_hash ≠ b.hash
  · rw [if_pos h1] at h; simp at h
  · rw [if_neg h1] at h
    push_neg at h1
    rcases hd : b.decoded with _ | dh
    · simp only [hd] at h; simp at h
    · simp only [hd] at h
      by_cases h2 : t.expected_next_height ≠ dh.number
      · rw [if_pos h2] at h; simp at h
      · rw [if_neg h2] at h
        push_neg at h2
        by_cases h3 : dh.number ≤ t.inner.finalizedHeight
        · rw [if_pos h3] at h; simp at h
        · rw [if_neg h3] at h
          have hpos : 1 ≤ t.expected_next_height := by omega
          refine ⟨h1.symm, dh, rfl, h2.symm, hpos, ?_⟩
          by_cases h4 : t.expected_next_hash ∈ t.inner.treeBlocks
          · rw [if_pos h4] at h
            simp only [Except.ok.injEq] at h
            rw [← h]
            exact ⟨rfl, rfl⟩
          · rw [if_neg h4] at h
            by_cases h5 : dh.number = t.inner.finalizedHeight + 1 ∧
                dh.parent_hash ≠ t.inner.finalizedHash
            · rw [if_pos h5] at h; simp at h
            · rw [if_neg h5] at h
              by_cases h6 : contains_unverified_block t.inner dh.number
                  t.expected_next_hash
              · rw [if_neg (by simp [h6])] at h
                simp only [Except.ok.injEq] at h
                rw [← h]
                exact ⟨rfl, rfl⟩
              · rw [if_pos (by simp [h6])] at h
                simp only [Except.ok.injEq] at h
                rw [← h]
                exact ⟨rfl, rfl⟩

theorem acceptedBlocks_chain (bs : List ResponseBlock) :
    ∀ t : FinishAncestrySearch,
      Chain t.expected_next_hash t.expected_next_height
        (acceptedBlocks t bs) := by
  induction bs with
  | nil => intro t; exact Chain.nil _ _
  | cons b bs ih =>
      intro t
      unfold acceptedBlocks
      rcases hstep : stepBlock t b with st | t'
      · exact Chain.nil _ _
      · rcases stepBlock_ok hstep with ⟨hh, dh, hd, hn, hpos, hph, hht⟩
        refine Chain.cons _ _ _ _ hh rfl hpos ?_
        have hchain := ih t'
        rw [hph, hht] at hchain
        simpa [hd] using hchain

theorem add_block_unexpected_iff (t : FinishAncestrySearch)
    (b : ResponseBlock) :
    (∃ st, t.add_block b
        = .error (AncestrySearchResponseError.UnexpectedBlock, st)) ↔
      (b.hash ≠ t.expected_next_hash ∨
        ∃ dh, b.decoded = some dh ∧ dh.number ≠ t.expected_next_height) := by
  unfold FinishAncestrySearch.add_block
  by_cases h1 : t.expected_next_hash ≠ b.hash
  · rw [if_pos h1]
    constructor
    · intro _; exact Or.inl (Ne.symm h1)
    · intro _; exact ⟨t.finish, rfl⟩
  · rw [if_neg h1]
    push_neg at h1
    rcases hd : b.decoded with _ | dh
    · simp only [hd]
      constructor
      · intro ⟨st, hst⟩; simp at hst
      · rintro (hne | ⟨dh, hdh, _⟩)
        · exact absurd h1.symm hne
        · simp [hd] at hdh
    · simp only [hd]
      by_cases h2 : t.expected_next_height ≠ dh.number
      · rw [if_pos h2]
        constructor
        · intro _; exact Or.inr ⟨dh, rfl, Ne.symm h2⟩
        · intro _; exact ⟨t.finish, rfl⟩
      · rw [if_neg h2]
        push_neg at h2
        constructor
        · rintro ⟨st, hst⟩
          by_cases h3 : dh.number ≤ t.inner.finalizedHeight
          · rw [if_pos h3] at hst; simp at hst
          · rw [if_neg h3] at hst
            by_cases h4 : t.expected_next_hash ∈ t.inner.treeBlocks
            · rw [if_pos h4] at hst; simp at hst
            · rw [if_neg h4] at hst
              by_cases h5 : dh.number = t.inner.finalizedHeight + 1 ∧
                  dh.parent_hash ≠ t.inner.finalizedHash
              · rw [if_pos h5] at hst; simp at hst
              · rw [if_neg h5] at hst
                by_cases h6 : contains_unverified_block t.inner dh.number
                    t.expected_next_hash
                · rw [if_neg (by simp [h6])] at hst; simp at hst
                · rw [if_pos (by simp [h6])] at hst; simp at hst
        · rintro (hne | ⟨dh', hdh', hne'⟩)
          · exact absurd h1.symm hne
          · simp only [Option.some.injEq] at hdh'
            subst hdh'
            exact absurd h2.symm hne'

/-- C5: within one ancestry-search transaction, a response block is
accepted only when its hash equals the expected hash (the requested hash
for the first block, the previous accepted block's parent hash
afterwards) and its decoded header number equals the expected height,
which decreases by exactly one per accepted block; a block failing
either check is rejected with `UnexpectedBlock`, ending the
transaction. -/
theorem C5_ancestry_response_chain (t : FinishAncestrySearch)
    (b : ResponseBlock) (bs : List ResponseBlock)
    (st : AllForksState) (src h hs : Nat) :
    ((∃ st', t.add_block b
        = .error (AncestrySearchResponseError.UnexpectedBlock, st')) ↔
      (b.hash ≠ t.expected_next_hash ∨
        ∃ dh, b.decoded = some dh ∧
          dh.number ≠ t.expected_next_height)) ∧
    Chain t.expected_next_hash t.expected_next_height
      (acceptedBlocks t bs) ∧
    (finish_ancestry_search st src h hs).expected_next_hash = hs ∧
    (finish_ancestry_search st src h hs).expected_next_height = h :=
  ⟨add_block_unexpected_iff t b, acceptedBlocks_chain bs t, rfl, rfl⟩

/-- C6: counterexample.  The transaction requested block (3, hash 50)
from source 0; the finalized block is (2, hash 0).  The single response
block has the right hash and height — so `any_progress` is set — but its
parent is not the finalized block, so it is rejected with
`NotFinalizedChain` and *no block is added* to the state machine.  The
transaction ends with the engine completely unchanged: the entry
`(0, 3, 50)` is *not* removed from the source's known-blocks set, though
the claim requires removal whenever no block was added. -/
theorem C6_counterexample :
    ((finish_ancestry_search
        ⟨2, 0, [], [], [(0, 3, 50)], [], [], []⟩ 0 3 50).add_block
          ⟨50, some ⟨3, 77⟩, []⟩
      = .error (AncestrySearchResponseError.NotFinalizedChain,
          ⟨2, 0, [], [], [(0, 3, 50)], [], [], []⟩)) ∧
    (⟨2, 0, [], [], [(0, 3, 50)], [], [], []⟩ :
        AllForksState).knownBlocks ≠ [] := by
  constructor
  · rfl
  · simp

/-- C6 (amended): `finish` removes the requested block from the source's
known-blocks set iff no `add_block` call of the transaction passed the
expected-hash and expected-height checks (`any_progress` still `false`);
a block passing both checks sets `any_progress` even when it is then
rejected (`TooOld` / `NotFinalizedChain`) without being added, and the
entry is then left in place. -/
theorem C6_finish_removes_iff_no_progress (t : FinishAncestrySearch)
    (b : ResponseBlock) (dh : Header) :
    (t.any_progress = false →
      t.finish = remove_known_block_of_source t.inner t.source_id
        t.requested_block_height t.requested_block_hash) ∧
    (t.any_progress = true → t.finish = t.inner) ∧
    ((b.hash ≠ t.expected_next_hash ∨ b.decoded = Option.none ∨
        (b.decoded = some dh ∧ dh.number ≠ t.expected_next_height)) →
      ∃ e, t.add_block b = .error (e, t.finish)) ∧
    ((b.hash = t.expected_next_hash ∧ b.decoded = some dh ∧
        dh.number = t.expected_next_height) →
      (∀ e st', t.add_block b = .error (e, st') →
          st' = FinishAncestrySearch.finish
            { t with any_progress := true }) ∧
      (∀ k t' h, t.add_block b = .ok (k, t', h) →
          t'.any_progress = true)) := by
  refine ⟨?_, ?_, ?_, ?_⟩
  · intro hp; unfold FinishAncestrySearch.finish; rw [hp]; rfl
  · intro hp; unfold FinishAncestrySearch.finish; rw [hp]; rfl
  · intro hfail
    unfold FinishAncestrySearch.add_block
    by_cases h1 : t.expected_next_hash ≠ b.hash
    · rw [if_pos h1]
      exact ⟨.UnexpectedBlock, rfl⟩
    · rw [if_neg h1]
      push_neg at h1
      rcases hd : b.decoded with _ | dh'
      · exact ⟨.InvalidHeader, rfl⟩
      · rcases hfail with hne | hnone | ⟨hdh, hnum⟩
        · exact absurd h1.symm hne
        · rw [hd] at hnone; simp at hnone
        · rw [hd] at hdh
          simp only [Option.some.injEq] at hdh
          subst hdh
          exact ⟨.UnexpectedBlock, if_pos (Ne.symm hnum)⟩
  · rintro ⟨hh, hdd, hnum⟩
    have h1' : ¬(t.expected_next_hash ≠ b.hash) := by simp [hh]
    have h2' : ¬(t.expected_next_height ≠ dh.number) := by simp [hnum]
    constructor
    · intro e st' hst'
      unfold FinishAncestrySearch.add_block at hst'
      rw [if_neg h1'] at hst'
      simp only [hdd] at hst'
      rw [if_neg h2'] at hst'
      by_cases h3 : dh.number ≤ t.inner.finalizedHeight
      · rw [if_pos h3] at hst'
        simp only [Except.error.injEq, Prod.mk.injEq] at hst'
        exact hst'.2.symm
      · rw [if_neg h3] at hst'
        by_cases h4 : t.expected_next_hash ∈ t.inner.treeBlocks
        · rw [if_pos h4] at hst'; simp at hst'
        · rw [if_neg h4] at hst'
          by_cases h5 : dh.number = t.inner.finalizedHeight + 1 ∧
              dh.parent_hash ≠ t.inner.finalizedHash
          · rw [if_pos h5] at hst'
            simp only [Except.error.injEq, Prod.mk.injEq] at hst'
            exact hst'.2.symm
          · rw [if_neg h5] at hst'
            by_cases h6 : contains_unverified_block t.inner dh.number
                t.expected_next_hash
            · rw [if_neg (by simp [h6])] at hst'; simp at hst'
            · rw [if_pos (by simp [h6])] at hst'; simp at hst'
    · intro k t' h hok
      unfold FinishAncestrySearch.add_block at hok
      rw [if_neg h1'] at hok
      simp only [hdd] at hok
      rw [if_neg h2'] at hok
      by_cases h3 : dh.number ≤ t.inner.finalizedHeight
      · rw [if_pos h3] at hok; simp at hok
      · rw [if_neg h3] at hok
        by_cases h4 : t.expected_next_hash ∈ t.inner.treeBlocks
        · rw [if_pos h4] at hok
          simp only [Except.ok.injEq, Prod.mk.injEq] at hok
          rw [← hok.2.1]
        · rw [if_neg h4] at hok
          by_cases h5 : dh.number = t.inner.finalizedHeight + 1 ∧
              dh.parent_hash ≠ t.inner.finalizedHash
          · rw [if_pos h5] at hok; simp at hok
          · rw [if_neg h5] at hok
            by_cases h6 : contains_unverified_block t.inner dh.number
                t.expected_next_hash
            · rw [if_neg (by simp [h6])] at hok
              simp only [Except.ok.injEq, Prod.mk.injEq] at hok
              rw [← hok.2.1]
            · rw [if_pos (by simp [h6])] at hok
              simp only [Except.ok.injEq, Prod.mk.injEq] at hok
              rw [← hok.2.1]

/-- Concrete instantiation of `C6_finish_removes_iff_no_progress`: a
transaction that made no progress removes the requested block from the
source's known-blocks set. -/
theorem C6_finish_removes_iff_no_progress_witness :
    (finish_ancestry_search
        ⟨2, 0, [], [], [(0, 3, 50)], [], [], []⟩ 0 3 50).finish
      = remove_known_block_of_source
          ⟨2, 0, [], [], [(0, 3, 50)], [], [], []⟩ 0 3 50 ∧
    (remove_known_block_of_source
        ⟨2, 0, [], [], [(0, 3, 50)], [], [], []⟩ 0 3 50).knownBlocks
      = [] := by
  refine ⟨(C6_finish_removes_iff_no_progress
    (finish_ancestry_search ⟨2, 0, [], [], [(0, 3, 50)], [], [], []⟩ 0 3 50)
    ⟨0, Option.none, []⟩ ⟨0, 0⟩).1 rfl, ?_⟩
  rfl

/-- `blocks_tree::CommitVerifyError`, flattened.

Modelled from the spec: the external tree (`blocks_tree`) is not under
`src/`; §6 of the spec lists the commit-verification failure reasons,
the last three carrying a block number.  `Other` stands for every
remaining verification failure. -/
inductive CommitVerifyError where
  | FinalityVerifyEqualToFinalized
  | FinalityVerifyBelowFinalized
  | FinalityVerifyUnknownTargetBlock (block_number : Nat)
  | FinalityVerifyTooFarAhead (justification_block_number : Nat)
  | NotEnoughKnownBlocks (target_block_number : Nat)
  | Other (code : Nat)
deriving DecidableEq, Repr

/-- Result of `blocks_tree::verify_grandpa_commit_message` (modelled
from the spec; external). -/
inductive CommitVerifyResult where
  | ok
  | err (e : CommitVerifyError)
deriving DecidableEq, Repr

/-- Insertion of a proof into a source's `pending_finality_proofs` slot
(all_forks.rs lines 963-967). -/
def insertPendingProofs (st : AllForksState) (src n : Nat)
    (proof : FinalityProofs) : AllForksState :=
  { st with
      sources := st.sources.map (fun q =>
        if q.1 = src then
          (q.1,
            { q.2 with
                pending_finality_proofs :=
                  q.2.pending_finality_proofs.insert n proof })
        else q) }

/-- `AllForksSync::grandpa_commit_message` (all_forks.rs lines 924-970).
Returns `none` where indexing an invalid source panics; the tree
mutation performed by `apply.apply()` in the `Ok` branch is abstracted
by `applyFn`. -/
def grandpa_commit_message (st : AllForksState) (source_id : Nat)
    (scale_encoded_commit : Nat) (result : CommitVerifyResult)
    (applyFn : AllForksState → AllForksState) :
    Option (Except CommitVerifyError AllForksState) :=
  if st.sources.any (fun p => p.1 == source_id) then
    some <|
      match result with
      | .ok => .ok (applyFn st)
      | .err .FinalityVerifyEqualToFinalized => .ok st
      | .err .FinalityVerifyBelowFinalized => .ok st
      | .err (.FinalityVerifyUnknownTargetBlock block_number)
      | .err (.FinalityVerifyTooFarAhead block_number)
      | .err (.NotEnoughKnownBlocks block_number) =>
          .ok (insertPendingProofs st source_id block_number
            (.grandpaCommit scale_encoded_commit))
      | .err (.Other code) => .error (.Other code)
  else Option.none

/-- C7: `grandpa_commit_message` returns `Ok` without storing anything on
`EqualToFinalized`/`BelowFinalized`; returns `Ok` after inserting the
commit, keyed by the reported target number, into the source's
`pending_finality_proofs` on `UnknownTargetBlock`/`TooFarAhead`/
`NotEnoughKnownBlocks`; and surfaces every other verification failure as
`Err`. -/
theorem C7_grandpa_commit_message (st : AllForksState)
    (sid commit n code : Nat)
    (applyFn : AllForksState → AllForksState)
    (hsid : st.sources.any (fun p => p.1 == sid) = true) :
    (grandpa_commit_message st sid commit
        (.err .FinalityVerifyEqualToFinalized) applyFn = some (.ok st)) ∧
    (grandpa_commit_message st sid commit
        (.err .FinalityVerifyBelowFinalized) applyFn = some (.ok st)) ∧
    (∀ mk : Nat → CommitVerifyError,
      (mk = CommitVerifyError.FinalityVerifyUnknownTargetBlock ∨
       mk = CommitVerifyError.FinalityVerifyTooFarAhead ∨
       mk = CommitVerifyError.NotEnoughKnownBlocks) →
      grandpa_commit_message st sid commit (.err (mk n)) applyFn
        = some (.ok (insertPendingProofs st sid n
            (.grandpaCommit commit)))) ∧
    (grandpa_commit_message st sid commit (.err (.Other code)) applyFn
        = some (.error (.Other code))) ∧
    (∀ q ∈ st.sources, q.1 = sid →
      (q.1,
        { q.2 with
            pending_finality_proofs :=
              q.2.pending_finality_proofs.insert n
                (.grandpaCommit commit) })
        ∈ (insertPendingProofs st sid n (.grandpaCommit commit)).sources) := by
  refine ⟨?_, ?_, ?_, ?_, ?_⟩
  · unfold grandpa_commit_message; rw [if_pos hsid]
  · unfold grandpa_commit_message; rw [if_pos hsid]
  · intro mk hmk
    rcases hmk with h | h | h <;>
      (subst h; unfold grandpa_commit_message; rw [if_pos hsid])
  · unfold grandpa_commit_message; rw [if_pos hsid]
  · intro q hq hqs
    unfold insertPendingProofs
    simp only
    have : (if q.1 = sid then
        (q.1,
          { q.2 with
              pending_finality_proofs :=
                q.2.pending_finality_proofs.insert n
                  (FinalityProofs.grandpaCommit commit) })
        else q)
      = (q.1,
          { q.2 with
              pending_finality_proofs :=
                q.2.pending_finality_proofs.insert n
                  (FinalityProofs.grandpaCommit commit) }) := if_pos hqs
    rw [← this]
    exact List.mem_map_of_mem _ hq

/-- Concrete instantiation of `C7_grandpa_commit_message`. -/
theorem C7_grandpa_commit_message_witness :
    grandpa_commit_message
        ⟨0, 0, [], [], [], [], [(4, ⟨.None, .None⟩)], []⟩ 4 11
        (.err (.FinalityVerifyUnknownTargetBlock 20)) id
      = some (.ok (insertPendingProofs
          ⟨0, 0, [], [], [], [], [(4, ⟨.None, .None⟩)], []⟩ 4 20
          (.grandpaCommit 11))) :=
  (C7_grandpa_commit_message
    ⟨0, 0, [], [], [], [], [(4, ⟨.None, .None⟩)], []⟩ 4 11 20 0 id
    (by decide)).2.2.1 CommitVerifyError.FinalityVerifyUnknownTargetBlock
    (Or.inl rfl)

end AllForks

namespace Babe

/-- A byte. -/
abbrev Byte := Fin 256

/-- Little-endian value of a byte string. -/
def leVal : List Byte → Nat
  | [] => 0
  | b :: bs => b.val + 256 * leVal bs

/-- `nom::bytes::complete::take n`: consume exactly `n` bytes. -/
def takeBytes (n : Nat) (bs : List Byte) :
    Option (List Byte × List Byte) :=
  if n ≤ bs.length then some (bs.take n, bs.drop n) else Option.none

/-- `nom::number::complete::le_u64`: consume 8 bytes, little-endian. -/
def leU64 (bs : List Byte) : Option (Nat × List Byte) :=
  (takeBytes 8 bs).map (fun p => (leVal p.1, p.2))

/-- `crate::util::nom_scale_compact_usize`.

Modelled from the spec: `util.rs` is not under `src/`; this is the SCALE
compact-integer byte grammar the spec's "SCALE-compact length-prefixed"
refers to — two low mode bits select a 1-, 2-, 4- or (4+k)-byte
encoding. -/
def decodeCompact : List Byte → Option (Nat × List Byte)
  | [] => Option.none
  | b :: rest =>
      match b.val % 4 with
      | 0 => some (b.val / 4, rest)
      | 1 =>
          match rest with
          | b1 :: rest' => some (b.val / 4 + 64 * b1.val, rest')
          | [] => Option.none
      | 2 =>
          match rest with
          | b1 :: b2 :: b3 :: rest' =>
              some (b.val / 4
                + 64 * (b1.val + 256 * (b2.val + 256 * b3.val)), rest')
          | _ => Option.none
      | _ =>
          (takeBytes (b.val / 4 + 4) rest).map
            (fun p => (leVal p.1, p.2))

/-- `header::BabeAllowedSlots` (external; the three tag values of the
final byte). -/
inductive BabeAllowedSlots where
  | PrimarySlots
  | PrimaryAndSecondaryPlainSlots
  | PrimaryAndSecondaryVrfSlots
deriving DecidableEq, Repr

/-- The `nom::branch::alt` over the three one-byte tags
(babe_genesis_config.rs lines 147-157). -/
def decodeAllowedSlots : List Byte → Option (BabeAllowedSlots × List Byte)
  | [] => Option.none
  | b :: rest =>
      if b.val = 0 then some (.PrimarySlots, rest)
      else if b.val = 1 then some (.PrimaryAndSecondaryPlainSlots, rest)
      else if b.val = 2 then some (.PrimaryAndSecondaryVrfSlots, rest)
      else Option.none

/-- `nom::multi::many_m_n(num_elems, num_elems, (32-byte key, le_u64))`
(babe_genesis_config.rs lines 128-143): exactly `n` authority pairs. -/
def decodeAuthorities :
    Nat → List Byte → Option (List (List Byte × Nat) × List Byte)
  | 0, bs => some ([], bs)
  | n + 1, bs =>
      match takeBytes 32 bs with
      | Option.none => Option.none
      | some (pk, rest) =>
          match leU64 rest with
          | Option.none => Option.none
          | some (weight, rest') =>
              match decodeAuthorities n rest' with
              | Option.none => Option.none
              | some (auths, rest'') =>
                  some ((pk, weight) :: auths, rest'')

/-- `BabeGenesisConfiguration` (babe_genesis_config.rs lines 30-34),
with `BabeNextConfig`/`BabeNextEpoch` inlined. -/
structure BabeGenesisConfiguration where
  slots_per_epoch : Nat
  c0 : Nat
  c1 : Nat
  authorities : List (List Byte × Nat)
  randomness : List Byte
  allowed_slots : BabeAllowedSlots
deriving DecidableEq, Repr

/-- `decode_genesis_config` (babe_genesis_config.rs lines 121-174): the
sequential field decoders, with the slot duration ignored and the
slots-per-epoch value required nonzero (`map_opt NonZeroU64::new`). -/
def decode_genesis_config (bytes : List Byte) :
    Option (BabeGenesisConfiguration × List Byte) :=
  match leU64 bytes with
  | Option.none => Option.none
  | some (_slot_duration, r1) =>
    match leU64 r1 with
    | Option.none => Option.none
    | some (slots_per_epoch, r2) =>
      if slots_per_epoch = 0 then Option.none
      else
        match leU64 r2 with
        | Option.none => Option.none
        | some (c0, r3) =>
          match leU64 r3 with
          | Option.none => Option.none
          | some (c1, r4) =>
            match decodeCompact r4 with
            | Option.none => Option.none
            | some (num_elems, r5) =>
              match decodeAuthorities num_elems r5 with
              | Option.none => Option.none
              | some (authorities, r6) =>
                match takeBytes 32 r6 with
                | Option.none => Option.none
                | some (randomness, r7) =>
                  match decodeAllowedSlots r7 with
                  | Option.none => Option.none
                  | some (allowed_slots, r8) =>
                      some (⟨slots_per_epoch, c0, c1, authorities,
                        randomness, allowed_slots⟩, r8)

/-- `nom::combinator::all_consuming(decode_genesis_config)`
(babe_genesis_config.rs line 58): succeed only with no trailing
bytes. -/
def decodeAll (bytes : List Byte) : Option BabeGenesisConfiguration :=
  match decode_genesis_config bytes with
  | some (cfg, []) => some cfg
  | _ => Option.none

/-- `FromVmPrototypeError` (babe_genesis_config.rs lines 97-107). -/
inductive FromVmPrototypeError where
  | VmStart
  | Trapped
  | HostFunctionNotAllowed
  | OutputDecode
deriving DecidableEq, Repr

/-- The host-VM states handled by the loop of
`from_virtual_machine_prototype` (babe_genesis_config.rs lines 52-91).

Modelled from the spec: the `host` VM is external; `ReadyToRun` steps are
already folded into the continuations, and every host call other than
storage-get / max-log-level / log-emit is the `other` catch-all. -/
inductive HostVm where
  | Finished (output : List Byte)
  | Error
  | ExternalStorageGet (key : List Byte)
      (resume : Option (List Byte) → HostVm)
  | GetMaxLogLevel (resume : Nat → HostVm)
  | LogEmit (resume : HostVm)
  | OtherHostCall

/-- The loop of `from_virtual_machine_prototype` (babe_genesis_config.rs
lines 52-91): serve storage reads from the closure, resume log-level
queries with 0, skip log emissions, and fail on any other host call. -/
def runVm (genesis_storage_access : List Byte → Option (List Byte)) :
    HostVm → Except FromVmPrototypeError BabeGenesisConfiguration
  | .Finished output =>
      match decodeAll output with
      | some cfg => .ok cfg
      | Option.none => .error .OutputDecode
  | .Error => .error .Trapped
  | .ExternalStorageGet key resume =>
      runVm genesis_storage_access (resume (genesis_storage_access key))
  | .GetMaxLogLevel resume => runVm genesis_storage_access (resume 0)
  | .LogEmit resume => runVm genesis_storage_access resume
  | .OtherHostCall => .error .HostFunctionNotAllowed

/-- `BabeGenesisConfiguration::from_virtual_machine_prototype`
(babe_genesis_config.rs lines 43-92); `start` is `none` when
`run_no_param("BabeApi_configuration")` fails. -/
def from_virtual_machine_prototype
    (genesis_storage_access : List Byte → Option (List Byte))
    (start : Option HostVm) :
    Except FromVmPrototypeError BabeGenesisConfiguration :=
  match start with
  | Option.none => .error .VmStart
  | some vm => runVm genesis_storage_access vm

/-- The SCALE compact-integer byte grammar (spec side): the two low bits
of the first byte select a 1-, 2-, 4- or (4+k)-byte little-endian
encoding. -/
inductive IsCompactEncoding : List Byte → Nat → Prop where
  | mode0 (b : Byte) (h : b.val % 4 = 0) :
      IsCompactEncoding [b] (b.val / 4)
  | mode1 (b b1 : Byte) (h : b.val % 4 = 1) :
      IsCompactEncoding [b, b1] (b.val / 4 + 64 * b1.val)
  | mode2 (b b1 b2 b3 : Byte) (h : b.val % 4 = 2) :
      IsCompactEncoding [b, b1, b2, b3]
        (b.val / 4 + 64 * (b1.val + 256 * (b2.val + 256 * b3.val)))
  | mode3 (b : Byte) (chunk : List Byte) (h : b.val % 4 = 3)
      (hlen : chunk.length = b.val / 4 + 4) :
      IsCompactEncoding (b :: chunk) (leVal chunk)

/-- The byte-string format the spec describes for the BABE genesis
configuration output: a little-endian u64 slot duration, a nonzero
little-endian u64 slots-per-epoch, two little-endian u64 constants, a
SCALE-compact length prefix followed by that many (32-byte key, 8-byte
little-endian weight) authority pairs, 32 bytes of randomness, and a
final allowed-slots tag byte in {0, 1, 2}, with no trailing bytes. -/
def GoodOutput (bytes : List Byte) : Prop :=
  ∃ (sd spe c0b c1b lenpref : List Byte) (n : Nat)
    (pairs : List (List Byte × List Byte)) (rand : List Byte) (tag : Byte),
    bytes = sd ++ (spe ++ (c0b ++ (c1b ++ (lenpref ++
      ((pairs.map (fun p => p.1 ++ p.2)).join ++ (rand ++ [tag])))))) ∧
    sd.length = 8 ∧ spe.length = 8 ∧ c0b.length = 8 ∧ c1b.length = 8 ∧
    leVal spe ≠ 0 ∧
    IsCompactEncoding lenpref n ∧ pairs.length = n ∧
    (∀ p ∈ pairs, p.1.length = 32 ∧ p.2.length = 8) ∧
    rand.length = 32 ∧
    (tag.val = 0 ∨ tag.val = 1 ∨ tag.val = 2)

theorem takeBytes_eq_some {n : Nat} {bs chunk rest : List Byte}
    (h : takeBytes n bs = some (chunk, rest)) :
    bs = chunk ++ rest ∧ chunk.length = n := by
  unfold takeBytes at h
  split_ifs at h with hn
  · simp only [Option.some.injEq, Prod.mk.injEq] at h
    obtain ⟨h1, h2⟩ := h
    refine ⟨by rw [← h1, ← h2]; exact (List.take_append_drop n bs).symm, ?_⟩
    rw [← h1, List.length_take]
    omega

theorem takeBytes_append (chunk rest : List Byte) :
    takeBytes chunk.length (chunk ++ rest) = some (chunk, rest) := by
  unfold takeBytes
  rw [if_pos (by simp)]
  rw [List.take_left, List.drop_left]

theorem leU64_eq_some {bs : List Byte} {v : Nat} {rest : List Byte}
    (h : leU64 bs = some (v, rest)) :
    ∃ chunk, bs = chunk ++ rest ∧ chunk.length = 8 ∧ v = leVal chunk := by
  unfold leU64 at h
  rcases ht : takeBytes 8 bs with _ | p
  · rw [ht] at h; simp at h
  · rw [ht] at h
    simp only [Option.map_some', Option.some.injEq, Prod.mk.injEq] at h
    obtain ⟨h1, h2⟩ := h
    rcases takeBytes_eq_some ht with ⟨hb, hl⟩
    exact ⟨p.1, by rw [hb, h2], hl, h1.symm⟩

theorem leU64_append (chunk rest : List Byte) (h : chunk.length = 8) :
    leU64 (chunk ++ rest) = some (leVal chunk, rest) := by
  unfold leU64
  rw [← h, takeBytes_append]
  rfl

theorem decodeCompact_sound {bs : List Byte} {v : Nat} {rest : List Byte}
    (h : decodeCompact bs = some (v, rest)) :
    ∃ pre, bs = pre ++ rest ∧ IsCompactEncoding pre v := by
  match bs with
  | [] => simp [decodeCompact] at h
  | b :: r =>
      simp only [decodeCompact] at h
      have hlt : b.val % 4 < 4 := Nat.mod_lt _ (by norm_num)
      rcases hmod : b.val % 4 with _ | _ | _ | m
      · rw [hmod] at h
        simp only [Option.some.injEq, Prod.mk.injEq] at h
        exact ⟨[b], by rw [← h.2]; rfl, h.1 ▸ IsCompactEncoding.mode0 b hmod⟩
      · rw [hmod] at h
        match r with
        | [] => simp at h
        | b1 :: r' =>
            simp only [Option.some.injEq, Prod.mk.injEq] at h
            exact ⟨[b, b1], by rw [← h.2]; rfl,
              h.1 ▸ IsCompactEncoding.mode1 b b1 hmod⟩
      · rw [hmod] at h
        match r with
        | [] => simp at h
        | [b1] => simp at h
        | [b1, b2] => simp at h
        | b1 :: b2 :: b3 :: r' =>
            simp only [Option.some.injEq, Prod.mk.injEq] at h
            exact ⟨[b, b1, b2, b3], by rw [← h.2]; rfl,
              h.1 ▸ IsCompactEncoding.mode2 b b1 b2 b3 hmod⟩
      · have hm : m = 0 := by omega
        subst hm
        rw [hmod] at h
        rcases ht : takeBytes (b.val / 4 + 4) r with _ | p
        · rw [ht] at h; simp at h
        · rw [ht] at h
          simp only [Option.map_some', Option.some.injEq,
            Prod.mk.injEq] at h
          rcases takeBytes_eq_some ht with ⟨hb, hl⟩
          refine ⟨b :: p.1, ?_, ?_⟩
          · rw [hb, h.2]; rfl
          · exact h.1 ▸ IsCompactEncoding.mode3 b p.1 hmod hl

theorem decodeCompact_complete {pre : List Byte} {v : Nat}
    (rest : List Byte) (h : IsCompactEncoding pre v) :
    decodeCompact (pre ++ rest) = some (v, rest) := by
  cases h with
  | mode0 b hb =>
      simp only [List.cons_append, List.nil_append, decodeCompact]
      rw [hb]
  | mode1 b b1 hb =>
      simp only [List.cons_append, List.nil_append, decodeCompact]
      rw [hb]
  | mode2 b b1 b2 b3 hb =>
      simp only [List.cons_append, List.nil_append, decodeCompact]
      rw [hb]
  | mode3 b chunk hb hlen =>
      simp only [List.cons_append, decodeCompact]
      rw [hb, ← hlen, takeBytes_append]
      rfl

theorem decodeAuthorities_sound :
    ∀ (n : Nat) (bs : List Byte) (auths : List (List Byte × Nat))
      (rest : List Byte),
      decodeAuthorities n bs = some (auths, rest) →
      ∃ pairs : List (List Byte × List Byte),
        bs = (pairs.map (fun p => p.1 ++ p.2)).join ++ rest ∧
        pairs.length = n ∧
        ∀ p ∈ pairs, p.1.length = 32 ∧ p.2.length = 8 := by
  intro n
  induction n with
  | zero =>
      intro bs auths rest h
      simp only [decodeAuthorities, Option.some.injEq, Prod.mk.injEq] at h
      exact ⟨[], by simp [← h.2], rfl, by simp⟩
  | succ n ih =>
      intro bs auths rest h
      simp only [decodeAuthorities] at h
      rcases ht : takeBytes 32 bs with _ | ⟨pk, r2⟩
      · simp only [ht] at h; simp at h
      · simp only [ht] at h
        rcases hu : leU64 r2 with _ | ⟨w, r3⟩
        · simp only [hu] at h; simp at h
        · simp only [hu] at h
          rcases ha : decodeAuthorities n r3 with _ | ⟨ar, r4⟩
          · simp only [ha] at h; simp at h
          · simp only [ha, Option.some.injEq, Prod.mk.injEq] at h
            rcases takeBytes_eq_some ht with ⟨hb1, hl1⟩
            rcases leU64_eq_some hu with ⟨wchunk, hb2, hl2, _⟩
            rcases ih r3 ar r4 ha with ⟨pairs, hb3, hlp, hpl⟩
            refine ⟨(pk, wchunk) :: pairs, ?_, by simp [hlp], ?_⟩
            · rw [hb1, hb2, hb3, ← h.2]
              simp [List.append_assoc]
            · intro q hq
              rcases List.mem_cons.1 hq with hq | hq
              · rw [hq]; exact ⟨hl1, hl2⟩
              · exact hpl q hq

theorem decodeAuthorities_complete
    (pairs : List (List Byte × List Byte)) (rest : List Byte)
    (h : ∀ p ∈ pairs, p.1.length = 32 ∧ p.2.length = 8) :
    ∃ auths,
      decodeAuthorities pairs.length
        ((pairs.map (fun p => p.1 ++ p.2)).join ++ rest)
        = some (auths, rest) := by
  induction pairs with
  | nil => exact ⟨[], by simp [decodeAuthorities]⟩
  | cons p ps ih =>
      rcases ih (fun q hq => h q (List.mem_cons_of_mem p hq)) with
        ⟨auths, hih⟩
      refine ⟨(p.1, leVal p.2) :: auths, ?_⟩
      have hp := h p (List.mem_cons_self p ps)
      have e1 : takeBytes 32
          (p.1 ++ (p.2 ++ ((ps.map (fun q => q.1 ++ q.2)).join ++ rest)))
          = some (p.1,
              p.2 ++ ((ps.map (fun q => q.1 ++ q.2)).join ++ rest)) := by
        rw [← hp.1]; exact takeBytes_append _ _
      have e2 : leU64
          (p.2 ++ ((ps.map (fun q => q.1 ++ q.2)).join ++ rest))
          = some (leVal p.2, (ps.map (fun q => q.1 ++ q.2)).join ++ rest) :=
        leU64_append _ _ hp.2
      simp only [List.map_cons, List.flatten_cons, List.length_cons,
        decodeAuthorities, List.append_assoc]
      simp only [e1, e2, hih]

theorem decodeAllowedSlots_sound {bs : List Byte} {s : BabeAllowedSlots}
    {rest : List Byte} (h : decodeAllowedSlots bs = some (s, rest)) :
    ∃ tag : Byte, bs = tag :: rest ∧
      (tag.val = 0 ∨ tag.val = 1 ∨ tag.val = 2) := by
  match bs with
  | [] => simp [decodeAllowedSlots] at h
  | b :: r =>
      simp only [decodeAllowedSlots] at h
      split_ifs at h with h0 h1 h2
      · simp only [Option.some.injEq, Prod.mk.injEq] at h
        exact ⟨b, by rw [h.2], Or.inl h0⟩
      · simp only [Option.some.injEq, Prod.mk.injEq] at h
        exact ⟨b, by rw [h.2], Or.inr (Or.inl h1)⟩
      · simp only [Option.some.injEq, Prod.mk.injEq] at h
        exact ⟨b, by rw [h.2], Or.inr (Or.inr h2)⟩

theorem decodeAllowedSlots_complete (tag : Byte) (rest : List Byte)
    (h : tag.val = 0 ∨ tag.val = 1 ∨ tag.val = 2) :
    ∃ s, decodeAllowedSlots (tag :: rest) = some (s, rest) := by
  simp only [decodeAllowedSlots]
  rcases h with h | h | h
  · exact ⟨.PrimarySlots, by rw [if_pos h]⟩
  · refine ⟨.PrimaryAndSecondaryPlainSlots, ?_⟩
    rw [if_neg (by omega), if_pos h]
  · refine ⟨.PrimaryAndSecondaryVrfSlots, ?_⟩
    rw [if_neg (by omega), if_neg (by omega), if_pos h]

theorem decodeAll_iff_GoodOutput (bytes : List Byte) :
    (∃ cfg, decodeAll bytes = some cfg) ↔ GoodOutput bytes := by
  constructor
  · rintro ⟨cfg, hcfg⟩
    unfold decodeAll at hcfg
    rcases hg : decode_genesis_config bytes with _ | ⟨c, rest⟩
    · simp only [hg] at hcfg; simp at hcfg
    · simp only [hg] at hcfg
      match rest, hcfg with
      | b :: r, hcfg => exact absurd hcfg (by simp)
      | [], hcfg =>
        clear hcfg
        unfold decode_genesis_config at hg
        rcases h1 : leU64 bytes with _ | ⟨sdv, r1⟩
        · simp only [h1] at hg; simp at hg
        · simp only [h1] at hg
          rcases h2 : leU64 r1 with _ | ⟨spev, r2⟩
          · simp only [h2] at hg; simp at hg
          · simp only [h2] at hg
            by_cases hz : spev = 0
            · rw [if_pos hz] at hg; simp at hg
            · rw [if_neg hz] at hg
              rcases h3 : leU64 r2 with _ | ⟨c0v, r3⟩
              · simp only [h3] at hg; simp at hg
              · simp only [h3] at hg
                rcases h4 : leU64 r3 with _ | ⟨c1v, r4⟩
                · simp only [h4] at hg; simp at hg
                · simp only [h4] at hg
                  rcases h5 : decodeCompact r4 with _ | ⟨n, r5⟩
                  · simp only [h5] at hg; simp at hg
                  · simp only [h5] at hg
                    rcases h6 : decodeAuthorities n r5 with _ | ⟨auths, r6⟩
                    · simp only [h6] at hg; simp at hg
                    · simp only [h6] at hg
                      rcases h7 : takeBytes 32 r6 with _ | ⟨rand, r7⟩
                      · simp only [h7] at hg; simp at hg
                      · simp only [h7] at hg
                        rcases h8 : decodeAllowedSlots r7 with _ | ⟨slots, r8⟩
                        · simp only [h8] at hg; simp at hg
                        · simp only [h8, Option.some.injEq,
                            Prod.mk.injEq] at hg
                          rcases leU64_eq_some h1 with ⟨sd, hbs, hsdl, _⟩
                          rcases leU64_eq_some h2 with
                            ⟨spe, hbs2, hspel, hspev⟩
                          rcases leU64_eq_some h3 with ⟨c0b, hbs3, hc0l, _⟩
                          rcases leU64_eq_some h4 with ⟨c1b, hbs4, hc1l, _⟩
                          rcases decodeCompact_sound h5 with
                            ⟨lenpref, hbs5, hcomp⟩
                          rcases decodeAuthorities_sound n r5 auths r6 h6
                            with ⟨pairs, hbs6, hpl, hpp⟩
                          rcases takeBytes_eq_some h7 with ⟨hbs7, hrandl⟩
                          rcases decodeAllowedSlots_sound h8 with
                            ⟨tag, hbs8, htag⟩
                          refine ⟨sd, spe, c0b, c1b, lenpref, n, pairs,
                            rand, tag, ?_, hsdl, hspel, hc0l, hc1l,
                            ?_, hcomp, hpl, hpp, hrandl, htag⟩
                          · rw [hbs, hbs2, hbs3, hbs4, hbs5, hbs6, hbs7,
                              hbs8, hg.2]
                          · rw [← hspev]; exact hz
  · rintro ⟨sd, spe, c0b, c1b, lenpref, n, pairs, rand, tag, hbytes,
      hsdl, hspel, hc0l, hc1l, hnz, hcomp, hpl, hpp, hrandl, htag⟩
    subst hbytes
    rcases decodeAuthorities_complete pairs (rand ++ [tag]) hpp with
      ⟨auths, hauth⟩
    rcases decodeAllowedSlots_complete tag [] htag with ⟨slots, hslots⟩
    have e1 := leU64_append sd (spe ++ (c0b ++ (c1b ++ (lenpref ++
      ((pairs.map (fun p => p.1 ++ p.2)).join ++ (rand ++ [tag])))))) hsdl
    have e2 := leU64_append spe (c0b ++ (c1b ++ (lenpref ++
      ((pairs.map (fun p => p.1 ++ p.2)).join ++ (rand ++ [tag]))))) hspel
    have e3 := leU64_append c0b (c1b ++ (lenpref ++
      ((pairs.map (fun p => p.1 ++ p.2)).join ++ (rand ++ [tag])))) hc0l
    have e4 := leU64_append c1b (lenpref ++
      ((pairs.map (fun p => p.1 ++ p.2)).join ++ (rand ++ [tag]))) hc1l
    have e5 := decodeCompact_complete
      ((pairs.map (fun p => p.1 ++ p.2)).join ++ (rand ++ [tag])) hcomp
    have e6 : decodeAuthorities n
        ((pairs.map (fun p => p.1 ++ p.2)).join ++ (rand ++ [tag]))
        = some (auths, rand ++ [tag]) := by rw [← hpl]; exact hauth
    have e7 : takeBytes 32 (rand ++ [tag]) = some (rand, [tag]) := by
      rw [← hrandl]; exact takeBytes_append _ _
    refine ⟨⟨leVal spe, leVal c0b, leVal c1b, auths, rand, slots⟩, ?_⟩
    unfold decodeAll decode_genesis_config
    simp only [e1, e2, e3, e4, e5, e6, e7, hslots, if_neg hnz]

/-- A concrete well-formed genesis-config output: zero slot duration,
slots-per-epoch 1, zero constants, an empty authority list (compact
length 0), 32 zero bytes of randomness, and tag 0. -/
def exGoodBytes : List Byte :=
  List.replicate 8 0 ++ ((1 :: List.replicate 7 0) ++
    (List.replicate 8 0 ++ (List.replicate 8 0 ++ ([0] ++
      ((([] : List (List Byte × List Byte)).map
          (fun p => p.1 ++ p.2)).join ++
        (List.replicate 32 0 ++ [0]))))))

/-- C9: the BABE genesis-config output decoder succeeds exactly on byte
strings of the documented shape — little-endian u64 slot duration,
nonzero little-endian u64 slots-per-epoch, two little-endian u64
constants, SCALE-compact-length-prefixed list of (32-byte key, u64
weight) authorities, 32 bytes of randomness and a final tag byte in
{0, 1, 2}, with no trailing bytes — and on every other `Finished` VM
output `from_virtual_machine_prototype` returns `OutputDecode`. -/
theorem C9_babe_genesis_output
    (g : List Byte → Option (List Byte)) (out : List Byte) :
    ((∃ cfg, from_virtual_machine_prototype g (some (.Finished out))
        = .ok cfg) ↔ GoodOutput out) ∧
    (¬GoodOutput out →
      from_virtual_machine_prototype g (some (.Finished out))
        = .error .OutputDecode) := by
  have hrun : from_virtual_machine_prototype g (some (.Finished out))
      = match decodeAll out with
        | some cfg => .ok cfg
        | Option.none => .error .OutputDecode := rfl
  constructor
  · rw [hrun]
    rcases hd : decodeAll out with _ | cfg
    · simp only [hd]
      constructor
      · rintro ⟨cfg, hcfg⟩; simp at hcfg
      · intro hgood
        rcases (decodeAll_iff_GoodOutput out).2 hgood with ⟨cfg, hcfg⟩
        rw [hd] at hcfg
        simp at hcfg
    · simp only [hd]
      constructor
      · intro _; exact (decodeAll_iff_GoodOutput out).1 ⟨cfg, hd⟩
      · intro _; exact ⟨cfg, rfl⟩
  · intro hbad
    rw [hrun]
    rcases hd : decodeAll out with _ | cfg
    · simp only [hd]
    · exact absurd ((decodeAll_iff_GoodOutput out).1 ⟨cfg, hd⟩) hbad

/-- Concrete instantiation of `C9_babe_genesis_output`: the empty output
is rejected with `OutputDecode`, and `exGoodBytes` decodes
successfully. -/
theorem C9_babe_genesis_output_witness :
    from_virtual_machine_prototype (fun _ => Option.none)
        (some (.Finished [])) = .error .OutputDecode ∧
    ∃ cfg, from_virtual_machine_prototype (fun _ => Option.none)
        (some (.Finished exGoodBytes)) = .ok cfg := by
  constructor
  · apply (C9_babe_genesis_output (fun _ => Option.none) []).2
    intro hgood
    rcases (C9_babe_genesis_output (fun _ => Option.none) []).1.2 hgood
      with ⟨cfg, hcfg⟩
    rw [show from_virtual_machine_prototype (fun _ => Option.none)
        (some (.Finished [])) = .error .OutputDecode from rfl] at hcfg
    exact absurd hcfg (by simp)
  · apply (C9_babe_genesis_output (fun _ => Option.none) exGoodBytes).1.2
    refine ⟨List.replicate 8 0, 1 :: List.replicate 7 0,
      List.replicate 8 0, List.replicate 8 0, [0], 0, [],
      List.replicate 32 0, 0, rfl, rfl, rfl, rfl, rfl, by decide,
      ?_, rfl, by simp, rfl, Or.inl rfl⟩
    exact IsCompactEncoding.mode0 0 rfl
